import Mathlib

/-!
# ncpamixer configuration subsystem (`src/config.cpp`)

A shallow embedding of the configuration reader and of the typed accessors of
`Config`, followed by theorems about them.

* A `std::string` is a list of `Char`; one `Char` stands for one `char` of
  the C++ string.
* The member `config` (a `config_map`) is passed explicitly: every accessor
  takes the store and returns the possibly updated store with its result.
-/

namespace Config

/-- A `std::string` / C string: the sequence of its `char`s. -/
abbrev Str := List Char

/-- The character `\0`. -/
def NUL : Char := Char.ofNat 0

/-- The character `\n`. -/
def LF : Char := Char.ofNat 10

/-- The character `\r`. -/
def CR : Char := Char.ofNat 13

/-- The double quote character. -/
def DQ : Char := Char.ofNat 34

/-- The constant `MAX_LINE` of `config.cpp`. -/
def MAX_LINE : Nat := 300

/-! ## The store -/

/-- Modelled from the spec: the type `config_map` is declared in `config.hpp`,
which is not part of the sources at hand. The spec describes it as an ordered
mapping from string key to string value with unique keys; it is embedded as an
association list that the operations keep ordered by key. -/
abbrev config_map := List (Str × Str)

/-- The order of `std::string` keys: lexicographic on the character codes. -/
def strLt : Str → Str → Bool
  | [], [] => false
  | [], _ :: _ => true
  | _ :: _, [] => false
  | a :: as, b :: bs =>
    if a.toNat < b.toNat then true
    else if b.toNat < a.toNat then false
    else strLt as bs

/-- The lookup `config.find(key)`: `none` stands for `config.end()`. -/
def find : config_map → Str → Option Str
  | [], _ => none
  | (k, v) :: m, key => if key = k then some v else find m key

/-- The assignment `config[key] = val`: overwrites the binding of `key`, or
inserts one at the place the key order gives it. -/
def assign : config_map → Str → Str → config_map
  | [], key, val => [(key, val)]
  | (k, v) :: m, key, val =>
    if key = k then (key, val) :: m
    else if strLt key k then (key, val) :: (k, v) :: m
    else (k, v) :: assign m key val

/-- The read access `config[key]`: `operator[]` returns the bound value and
binds the key to the empty string first when it is absent. -/
def index (m : config_map) (key : Str) : Str × config_map :=
  match find m key with
  | some v => (v, m)
  | none => ([], assign m key [])

/-! ## `Config::readConfig`: the scan of one line -/

/-- The local variables of one iteration of the outer loop of `readConfig`:
`instring`, `key`, `val`, and whether `current` points to `val`. -/
structure LineState where
  instring : Bool
  inval : Bool
  key : Str
  val : Str
deriving DecidableEq, Repr

/-- The state at the start of a line: `instring = false`, `key` and `val`
empty, `current = &key`. -/
def LineState.init : LineState := ⟨false, false, [], []⟩

/-- The statement `current->append(tmp, 1)`. -/
def LineState.append (st : LineState) (c : Char) : LineState :=
  if st.inval then { st with val := st.val ++ [c] } else { st with key := st.key ++ [c] }

/-- The inner `while` loop of `readConfig`, run over the characters of the
buffer `line` from `tmp` on. The end of the list is the terminating `\0` of
the buffer. -/
def scan : Str → LineState → LineState
  | [], st => st
  | c :: rest, st =>
    if c = NUL ∨ c = LF ∨ c = CR then st
    else if c = '=' then scan rest { st with inval := true }
    else if c = '#' then st
    else if c = DQ then scan rest { st with instring := !st.instring }
    else if c ≠ ' ' ∨ st.instring = true then scan rest (st.append c)
    else scan rest st

/-- The scan of a whole line from the initial state. -/
def scanLine (line : Str) : LineState := scan line LineState.init

/-- The entry one line yields: the pair `(key, val)` when `key.length() > 0`,
nothing otherwise. -/
def tokenize (line : Str) : Option (Str × Str) :=
  let st := scanLine line
  if st.key.length > 0 then some (st.key, st.val) else none

/-- The body of the outer loop of `readConfig` after `fgets` has filled
`line`: scan, then `config[key] = val` when the key is not empty. -/
def loadLine (config : config_map) (line : Str) : config_map :=
  let st := scanLine line
  if st.key.length > 0 then assign config st.key st.val else config

/-! ## `Config::readConfig`: the loop over the file -/

/-- The call `fgets(line, n, f)` with `budget = n - 1` on the unread content
of the file: it reads at most `budget` characters and stops after a line
feed. The result is the text put in `line` and the content left unread. -/
def fgets : Nat → Str → Str × Str
  | 0, cs => ([], cs)
  | _ + 1, [] => ([], [])
  | k + 1, c :: cs =>
    if c = LF then ([c], cs)
    else ((c :: (fgets k cs).1), (fgets k cs).2)

/-- The outer `while` loop of `readConfig` over the unread content of the
file. At the end of the file `fgets` returns `nullptr` and the loop is left.
Every round consumes at least one character, so `fuel` above the length of
the content is never used up. -/
def readLoop : Nat → Str → config_map → config_map
  | 0, _, config => config
  | fuel + 1, content, config =>
    if content = [] then config
    else
      readLoop fuel (fgets (MAX_LINE - 1) content).2
        (loadLine config (fgets (MAX_LINE - 1) content).1)

/-- The function `Config::readConfig`: `file` is the content of the file
`filename`, `none` when `fopen` fails. The result is the returned `int` and
the store. -/
def readConfig (file : Option Str) (config : config_map) : Int × config_map :=
  match file with
  | some content => (1, readLoop (content.length + 1) content config)
  | none => (0, config)

/-! ## The accessors -/

/-- The function `Config::getString`. -/
def getString (config : config_map) (key : Str) (dflt : Str) : Str × config_map :=
  let config1 := if find config key = none then assign config key dflt else config
  index config1 key

/-- The C library predicate `isspace` in the "C" locale. -/
def isspace (c : Char) : Bool :=
  c = ' ' ∨ (9 ≤ c.toNat ∧ c.toNat ≤ 13)

/-- The C library predicate `isdigit`. -/
def isdigit (c : Char) : Bool :=
  48 ≤ c.toNat ∧ c.toNat ≤ 57

/-- The digit loop of `strtol` in base 10: the value of the longest run of
decimal digits at the start of the text, accumulated onto `acc`. -/
def digitsVal (acc : Nat) : Str → Nat
  | [] => acc
  | c :: cs => if isdigit c then digitsVal (acc * 10 + (c.toNat - 48)) cs else acc

/-- The value `strtol(s, NULL, 10)` before it is narrowed: white space is
skipped, one sign is read, then the digits. -/
def strtolVal (s : Str) : Int :=
  match s.dropWhile isspace with
  | [] => 0
  | c :: cs =>
    if c = '-' then - (digitsVal 0 cs : Int)
    else if c = '+' then (digitsVal 0 cs : Int)
    else (digitsVal 0 (c :: cs) : Int)

/-- The saturation of `strtol` to the range of a 64-bit `long`. -/
def clampLong (z : Int) : Int :=
  if z < -(2 : Int) ^ 63 then -(2 : Int) ^ 63
  else if z > (2 : Int) ^ 63 - 1 then (2 : Int) ^ 63 - 1
  else z

/-- The conversion of a `long` to a 32-bit `int`. -/
def toInt32 (z : Int) : Int :=
  (z + 2 ^ 31) % 2 ^ 32 - 2 ^ 31

/-- The C library function `atoi` as `(int) strtol(s, NULL, 10)`. The text
ends at its first `\0`, which is no digit, so the digit loop stops there. -/
def atoi (s : Str) : Int :=
  toInt32 (clampLong (strtolVal s))

/-- The C++ library function `std::to_string(int)`: the decimal digits, with
a leading minus sign for a negative number. -/
def to_string (d : Int) : Str :=
  if d < 0 then '-' :: Nat.toDigits 10 d.natAbs else Nat.toDigits 10 d.toNat

/-- The function `Config::getInt`. -/
def getInt (config : config_map) (key : Str) (dflt : Int) : Int × config_map :=
  let r := getString config key (to_string dflt)
  (atoi r.1, r.2)

/-- The function `Config::getBool`. -/
def getBool (config : config_map) (key : Str) (dflt : Bool) : Bool × config_map :=
  let r := getString config key (if dflt then "true".toList else "false".toList)
  (r.1 = "1".toList ∨ r.1 = "yes".toList ∨ r.1 = "true".toList, r.2)

/-- The function `Config::keyExists`. -/
def keyExists (config : config_map) (key : Str) : Bool :=
  !(find config key = none)

/-- The function `Config::keyEmpty`; `config[key]` is the read access
`index`, so the store is returned with the result. -/
def keyEmpty (config : config_map) (key : Str) : Bool × config_map :=
  if keyExists config key then ((index config key).1 = [], (index config key).2)
  else (true, config)

/-- The texts `fgets` delivers on its successive calls over the unread
content of the file, up to the call that returns `nullptr`. -/
def chunksFuel : Nat → Str → List Str
  | 0, _ => []
  | fuel + 1, content =>
    if content = [] then []
    else (fgets (MAX_LINE - 1) content).1 :: chunksFuel fuel (fgets (MAX_LINE - 1) content).2

/-- The texts `fgets` delivers over a whole file. -/
def fileChunks (content : Str) : List Str :=
  chunksFuel (content.length + 1) content

/-- The loop body of `readConfig` run over a sequence of lines. -/
def loadLines (config : config_map) (lines : List Str) : config_map :=
  lines.foldl loadLine config

/-! ## `Config::getKeycodeName` and `Config::getKeycodeNameEvents` -/

/-- Modelled from the spec: the constant `KEY` is declared in `config.hpp`,
which is not part of the sources at hand. `getKeycodeName` compares `KEY_SIZE`
characters with `KEY` and skips one more character before the number; the
spec gives the reserved keys as `keycode.<N>` and `keycode.f.<N>`, so `KEY`
is the word before the first dot. -/
def KEY : Str := "keycode".toList

/-- Modelled from the spec: the constant `KEY_SIZE` is declared in
`config.hpp` with `KEY`; it is the number of characters of `KEY`. -/
def KEY_SIZE : Nat := 7

/-- The C string a `const char *` designates: the characters before the
first `\0`. -/
def c_str (s : Str) : Str :=
  s.takeWhile (fun c => decide (c ≠ NUL))

/-- The C++ library function `std::stoi` in base 10: white space is skipped,
one sign is read, then the digits; what follows the digits is ignored. The
result `none` stands for the exception it throws: `std::invalid_argument`
when no digit is found, `std::out_of_range` when the value does not fit an
`int`. -/
def stoi (s : Str) : Option Int :=
  match s.dropWhile isspace with
  | [] => none
  | c :: cs =>
    match (if c = '-' ∨ c = '+' then cs else c :: cs) with
    | [] => none
    | d :: ds =>
      if isdigit d then
        if c = '-' then
          (if (digitsVal 0 (d :: ds) : Int) ≤ 2 ^ 31 then some (- (digitsVal 0 (d :: ds) : Int))
           else none)
        else
          (if (digitsVal 0 (d :: ds) : Int) < 2 ^ 31 then some (digitsVal 0 (d :: ds) : Int)
           else none)
      else none

/-- The function `Config::getKeycodeName`. The argument `none` is the null
pointer. The curses function `keyname` is a parameter; it returns `none`, the
null pointer, for a code that has no name. The result `none` stands for the
exception `std::logic_error`: the last `return` builds the `std::string` from
the pointer `keyname(k)` outside the `try`, and the construction from a null
pointer throws. The subtraction `k - 79` is an `int` subtraction. -/
def getKeycodeName (keyname : Int → Option Str) (keycode : Option Str) : Option Str :=
  match keycode with
  | none => some []
  | some p =>
    if c_str p = [] then some []
    else if (c_str p).take KEY_SIZE ≠ KEY then some []
    else if (c_str p).length < KEY_SIZE + 2 then some []
    else
      match stoi (if ((c_str p).drop (KEY_SIZE + 1))[0]? = some 'f'
                      ∧ ((c_str p).drop (KEY_SIZE + 1))[1]? = some '.'
                  then ((c_str p).drop (KEY_SIZE + 1)).drop 2
                  else (c_str p).drop (KEY_SIZE + 1)) with
      | none => some []
      | some k =>
        if ((c_str p).drop (KEY_SIZE + 1))[0]? = some 'f'
            ∧ ((c_str p).drop (KEY_SIZE + 1))[1]? = some '.'
        then some ("VT100_F".toList ++ to_string (toInt32 (k - 79)))
        else keyname k

/-- One round of the loop of `getKeycodeNameEvents` on the entry `it`, with
the map `keycodes` built so far. The result `none` is the exception of
`getKeycodeName`, which nothing in the loop catches. -/
def eventsStep (keyname : Int → Option Str) (keycodes : config_map) (it : Str × Str) :
    Option config_map :=
  match getKeycodeName keyname (some it.1) with
  | none => none
  | some kn => if kn = [] then some keycodes else some (assign keycodes kn it.2)

/-- The function `Config::getKeycodeNameEvents`: the loop runs over the
entries of `config` in the order of the keys and builds the map `keycodes`.
The result `none` stands for the exception that leaves the loop and the
function when `getKeycodeName` throws. -/
def getKeycodeNameEvents (keyname : Int → Option Str) (config : config_map) :
    Option config_map :=
  config.foldl
    (fun acc it =>
      match acc with
      | none => none
      | some keycodes => eventsStep keyname keycodes it)
    (some [])

/-! ## `Config::createDefault` -/

/-- The UTF-8 bytes of a character, each byte as one `char`. -/
def utf8 (c : Char) : Str :=
  if c.toNat < 128 then [c]
  else if c.toNat < 2048 then
    [Char.ofNat (192 + c.toNat / 64), Char.ofNat (128 + c.toNat % 64)]
  else if c.toNat < 65536 then
    [Char.ofNat (224 + c.toNat / 4096), Char.ofNat (128 + c.toNat / 64 % 64),
      Char.ofNat (128 + c.toNat % 64)]
  else
    [Char.ofNat (240 + c.toNat / 262144), Char.ofNat (128 + c.toNat / 4096 % 64),
      Char.ofNat (128 + c.toNat / 64 % 64), Char.ofNat (128 + c.toNat % 64)]

/-- The `char`s of a string literal of the UTF-8 source file. -/
def bytes (s : String) : Str :=
  s.toList.flatMap utf8

/-- The text made of the given lines, with a line feed between one line and
the next. -/
def joinLines : List Str → Str
  | [] => []
  | [l] => l
  | l :: l2 :: ls => l ++ LF :: joinLines (l2 :: ls)

/-- The lines of the string literal of `Config::createDefault`, without their
`\n`; the last one has none in the source. -/
def defaultLines : List Str :=
  [bytes "\"theme\" = \"default\"",
   bytes "",
   bytes "# Default theme \x7b",
   bytes "   \"theme.default.static_bar\"             = false",
   bytes "   \"theme.default.default_indicator\"      = \"♦ \"",
   bytes "   \"theme.default.bar_style.bg\"           = \"░\"",
   bytes "   \"theme.default.bar_style.fg\"           = \"█\"",
   bytes "   \"theme.default.bar_style.indicator\"    = \"█\"",
   bytes "   \"theme.default.bar_style.top\"          = \"▁\"",
   bytes "   \"theme.default.bar_style.bottom\"       = \"▔\"",
   bytes "   \"theme.default.bar_low.front\"          = 2",
   bytes "   \"theme.default.bar_low.back\"           = 0",
   bytes "   \"theme.default.bar_mid.front\"          = 3",
   bytes "   \"theme.default.bar_mid.back\"           = 0",
   bytes "   \"theme.default.bar_high.front\"         = 1",
   bytes "   \"theme.default.bar_high.back\"          = 0",
   bytes "   \"theme.default.volume_low\"             = 2",
   bytes "   \"theme.default.volume_mid\"             = 3",
   bytes "   \"theme.default.volume_high\"            = 1",
   bytes "   \"theme.default.volume_peak\"            = 1",
   bytes "   \"theme.default.volume_indicator\"       = -1",
   bytes "   \"theme.default.selected\"               = 2",
   bytes "   \"theme.default.default\"                = -1",
   bytes "   \"theme.default.border\"                 = -1",
   bytes "   \"theme.default.dropdown.selected_text\" = 0",
   bytes "   \"theme.default.dropdown.selected\"      = 2",
   bytes "   \"theme.default.dropdown.unselected\"    = -1",
   bytes "# \x7d",
   bytes "# c0r73x theme \x7b",
   bytes "   \"theme.c0r73x.static_bar\"             = false",
   bytes "   \"theme.c0r73x.default_indicator\"      = \"■ \"",
   bytes "   \"theme.c0r73x.bar_style.bg\"           = \"■\"",
   bytes "   \"theme.c0r73x.bar_style.fg\"           = \"■\"",
   bytes "   \"theme.c0r73x.bar_style.indicator\"    = \"■\"",
   bytes "   \"theme.c0r73x.bar_style.top\"          = \"\" ",
   bytes "   \"theme.c0r73x.bar_style.bottom\"       = \"\" ",
   bytes "   \"theme.c0r73x.bar_low.front\"          = 0",
   bytes "   \"theme.c0r73x.bar_low.back\"           = -1",
   bytes "   \"theme.c0r73x.bar_mid.front\"          = 0",
   bytes "   \"theme.c0r73x.bar_mid.back\"           = -1",
   bytes "   \"theme.c0r73x.bar_high.front\"         = 0",
   bytes "   \"theme.c0r73x.bar_high.back\"          = -1",
   bytes "   \"theme.c0r73x.volume_low\"             = 6",
   bytes "   \"theme.c0r73x.volume_mid\"             = 6",
   bytes "   \"theme.c0r73x.volume_high\"            = 6",
   bytes "   \"theme.c0r73x.volume_peak\"            = 1",
   bytes "   \"theme.c0r73x.volume_indicator\"       = 15",
   bytes "   \"theme.c0r73x.selected\"               = 6",
   bytes "   \"theme.c0r73x.default\"                = -1",
   bytes "   \"theme.c0r73x.border\"                 = -1",
   bytes "   \"theme.c0r73x.dropdown.selected_text\" = 0",
   bytes "   \"theme.c0r73x.dropdown.selected\"      = 6",
   bytes "   \"theme.c0r73x.dropdown.unselected\"    = -1",
   bytes "# \x7d",
   bytes "# Keybinds \x7b",
   bytes "   \"keycode.9\"    = \"switch\"          # tab",
   bytes "   \"keycode.13\"   = \"select\"          # enter",
   bytes "   \"keycode.27\"   = \"quit\"            # escape",
   bytes "   \"keycode.99\"   = \"dropdown\"        # c",
   bytes "   \"keycode.113\"  = \"quit\"            # q",
   bytes "   \"keycode.109\"  = \"mute\"            # m",
   bytes "   \"keycode.100\"  = \"set_default\"     # d",
   bytes "   \"keycode.108\"  = \"volume_up\"       # l",
   bytes "   \"keycode.104\"  = \"volume_down\"     # h",
   bytes "   \"keycode.261\"  = \"volume_up\"       # arrow right",
   bytes "   \"keycode.260\"  = \"volume_down\"     # arrow left",
   bytes "   \"keycode.107\"  = \"move_up\"         # k",
   bytes "   \"keycode.106\"  = \"move_down\"       # j",
   bytes "   \"keycode.259\"  = \"move_up\"         # arrow up",
   bytes "   \"keycode.258\"  = \"move_down\"       # arrow down",
   bytes "   \"keycode.338\"  = \"page_up\"         # page up",
   bytes "   \"keycode.339\"  = \"page_down\"       # page down",
   bytes "   \"keycode.76\"   = \"tab_next\"        # L",
   bytes "   \"keycode.72\"   = \"tab_prev\"        # H",
   bytes "   \"keycode.265\"  = \"tab_playback\"    # f1",
   bytes "   \"keycode.266\"  = \"tab_recording\"   # f2",
   bytes "   \"keycode.267\"  = \"tab_output\"      # f3",
   bytes "   \"keycode.268\"  = \"tab_input\"       # f4",
   bytes "   \"keycode.269\"  = \"tab_config\"      # f5",
   bytes "   \"keycode.f.80\" = \"tab_playback\"    # f1 VT100",
   bytes "   \"keycode.f.81\" = \"tab_recording\"   # f2 VT100",
   bytes "   \"keycode.f.82\" = \"tab_output\"      # f3 VT100",
   bytes "   \"keycode.f.83\" = \"tab_input\"       # f4 VT100",
   bytes "   \"keycode.f.84\" = \"tab_config\"      # f5 VT100",
   bytes "   \"keycode.71\"   = \"move_last\"       # G",
   bytes "   \"keycode.103\"  = \"move_first\"      # g",
   bytes "#   \"keycode.48\"   = \"set_volume_100\"  # 0",
   bytes "   \"keycode.48\"   = \"set_volume_0\"    # 0",
   bytes "   \"keycode.49\"   = \"set_volume_10\"   # 1",
   bytes "   \"keycode.50\"   = \"set_volume_20\"   # 2",
   bytes "   \"keycode.51\"   = \"set_volume_30\"   # 3",
   bytes "   \"keycode.52\"   = \"set_volume_40\"   # 4",
   bytes "   \"keycode.53\"   = \"set_volume_50\"   # 5",
   bytes "   \"keycode.54\"   = \"set_volume_60\"   # 6",
   bytes "   \"keycode.55\"   = \"set_volume_70\"   # 7",
   bytes "   \"keycode.56\"   = \"set_volume_80\"   # 8",
   bytes "   \"keycode.57\"   = \"set_volume_90\"   # 9",
   bytes "   \"keycode.63\"   = \"help\"            # ?",
   bytes "# \x7d"]

/-- The text `Config::createDefault` writes to the file `filename`. The
literal holds no `%`, so `fprintf` writes it as it stands. -/
def createDefaultText : Str :=
  joinLines defaultLines

/-- The store read back from the default file: the bindings of its lines, in
the order of the keys. -/
def defaultStore : config_map :=
  [(bytes "keycode.100", bytes "set_default"),
   (bytes "keycode.103", bytes "move_first"),
   (bytes "keycode.104", bytes "volume_down"),
   (bytes "keycode.106", bytes "move_down"),
   (bytes "keycode.107", bytes "move_up"),
   (bytes "keycode.108", bytes "volume_up"),
   (bytes "keycode.109", bytes "mute"),
   (bytes "keycode.113", bytes "quit"),
   (bytes "keycode.13", bytes "select"),
   (bytes "keycode.258", bytes "move_down"),
   (bytes "keycode.259", bytes "move_up"),
   (bytes "keycode.260", bytes "volume_down"),
   (bytes "keycode.261", bytes "volume_up"),
   (bytes "keycode.265", bytes "tab_playback"),
   (bytes "keycode.266", bytes "tab_recording"),
   (bytes "keycode.267", bytes "tab_output"),
   (bytes "keycode.268", bytes "tab_input"),
   (bytes "keycode.269", bytes "tab_config"),
   (bytes "keycode.27", bytes "quit"),
   (bytes "keycode.338", bytes "page_up"),
   (bytes "keycode.339", bytes "page_down"),
   (bytes "keycode.48", bytes "set_volume_0"),
   (bytes "keycode.49", bytes "set_volume_10"),
   (bytes "keycode.50", bytes "set_volume_20"),
   (bytes "keycode.51", bytes "set_volume_30"),
   (bytes "keycode.52", bytes "set_volume_40"),
   (bytes "keycode.53", bytes "set_volume_50"),
   (bytes "keycode.54", bytes "set_volume_60"),
   (bytes "keycode.55", bytes "set_volume_70"),
   (bytes "keycode.56", bytes "set_volume_80"),
   (bytes "keycode.57", bytes "set_volume_90"),
   (bytes "keycode.63", bytes "help"),
   (bytes "keycode.71", bytes "move_last"),
   (bytes "keycode.72", bytes "tab_prev"),
   (bytes "keycode.76", bytes "tab_next"),
   (bytes "keycode.9", bytes "switch"),
   (bytes "keycode.99", bytes "dropdown"),
   (bytes "keycode.f.80", bytes "tab_playback"),
   (bytes "keycode.f.81", bytes "tab_recording"),
   (bytes "keycode.f.82", bytes "tab_output"),
   (bytes "keycode.f.83", bytes "tab_input"),
   (bytes "keycode.f.84", bytes "tab_config"),
   (bytes "theme", bytes "default"),
   (bytes "theme.c0r73x.bar_high.back", bytes "-1"),
   (bytes "theme.c0r73x.bar_high.front", bytes "0"),
   (bytes "theme.c0r73x.bar_low.back", bytes "-1"),
   (bytes "theme.c0r73x.bar_low.front", bytes "0"),
   (bytes "theme.c0r73x.bar_mid.back", bytes "-1"),
   (bytes "theme.c0r73x.bar_mid.front", bytes "0"),
   (bytes "theme.c0r73x.bar_style.bg", bytes "■"),
   (bytes "theme.c0r73x.bar_style.bottom", bytes ""),
   (bytes "theme.c0r73x.bar_style.fg", bytes "■"),
   (bytes "theme.c0r73x.bar_style.indicator", bytes "■"),
   (bytes "theme.c0r73x.bar_style.top", bytes ""),
   (bytes "theme.c0r73x.border", bytes "-1"),
   (bytes "theme.c0r73x.default", bytes "-1"),
   (bytes "theme.c0r73x.default_indicator", bytes "■ "),
   (bytes "theme.c0r73x.dropdown.selected", bytes "6"),
   (bytes "theme.c0r73x.dropdown.selected_text", bytes "0"),
   (bytes "theme.c0r73x.dropdown.unselected", bytes "-1"),
   (bytes "theme.c0r73x.selected", bytes "6"),
   (bytes "theme.c0r73x.static_bar", bytes "false"),
   (bytes "theme.c0r73x.volume_high", bytes "6"),
   (bytes "theme.c0r73x.volume_indicator", bytes "15"),
   (bytes "theme.c0r73x.volume_low", bytes "6"),
   (bytes "theme.c0r73x.volume_mid", bytes "6"),
   (bytes "theme.c0r73x.volume_peak", bytes "1"),
   (bytes "theme.default.bar_high.back", bytes "0"),
   (bytes "theme.default.bar_high.front", bytes "1"),
   (bytes "theme.default.bar_low.back", bytes "0"),
   (bytes "theme.default.bar_low.front", bytes "2"),
   (bytes "theme.default.bar_mid.back", bytes "0"),
   (bytes "theme.default.bar_mid.front", bytes "3"),
   (bytes "theme.default.bar_style.bg", bytes "░"),
   (bytes "theme.default.bar_style.bottom", bytes "▔"),
   (bytes "theme.default.bar_style.fg", bytes "█"),
   (bytes "theme.default.bar_style.indicator", bytes "█"),
   (bytes "theme.default.bar_style.top", bytes "▁"),
   (bytes "theme.default.border", bytes "-1"),
   (bytes "theme.default.default", bytes "-1"),
   (bytes "theme.default.default_indicator", bytes "♦ "),
   (bytes "theme.default.dropdown.selected", bytes "2"),
   (bytes "theme.default.dropdown.selected_text", bytes "0"),
   (bytes "theme.default.dropdown.unselected", bytes "-1"),
   (bytes "theme.default.selected", bytes "2"),
   (bytes "theme.default.static_bar", bytes "false"),
   (bytes "theme.default.volume_high", bytes "1"),
   (bytes "theme.default.volume_indicator", bytes "-1"),
   (bytes "theme.default.volume_low", bytes "2"),
   (bytes "theme.default.volume_mid", bytes "3"),
   (bytes "theme.default.volume_peak", bytes "1")]

/-- The 42 uncommented `keycode` lines of the default file: the key and the
action written on the line. -/
def defaultKeybinds : List (Str × Str) :=
  [("keycode.9".toList, "switch".toList),
   ("keycode.13".toList, "select".toList),
   ("keycode.27".toList, "quit".toList),
   ("keycode.99".toList, "dropdown".toList),
   ("keycode.113".toList, "quit".toList),
   ("keycode.109".toList, "mute".toList),
   ("keycode.100".toList, "set_default".toList),
   ("keycode.108".toList, "volume_up".toList),
   ("keycode.104".toList, "volume_down".toList),
   ("keycode.261".toList, "volume_up".toList),
   ("keycode.260".toList, "volume_down".toList),
   ("keycode.107".toList, "move_up".toList),
   ("keycode.106".toList, "move_down".toList),
   ("keycode.259".toList, "move_up".toList),
   ("keycode.258".toList, "move_down".toList),
   ("keycode.338".toList, "page_up".toList),
   ("keycode.339".toList, "page_down".toList),
   ("keycode.76".toList, "tab_next".toList),
   ("keycode.72".toList, "tab_prev".toList),
   ("keycode.265".toList, "tab_playback".toList),
   ("keycode.266".toList, "tab_recording".toList),
   ("keycode.267".toList, "tab_output".toList),
   ("keycode.268".toList, "tab_input".toList),
   ("keycode.269".toList, "tab_config".toList),
   ("keycode.f.80".toList, "tab_playback".toList),
   ("keycode.f.81".toList, "tab_recording".toList),
   ("keycode.f.82".toList, "tab_output".toList),
   ("keycode.f.83".toList, "tab_input".toList),
   ("keycode.f.84".toList, "tab_config".toList),
   ("keycode.71".toList, "move_last".toList),
   ("keycode.103".toList, "move_first".toList),
   ("keycode.48".toList, "set_volume_0".toList),
   ("keycode.49".toList, "set_volume_10".toList),
   ("keycode.50".toList, "set_volume_20".toList),
   ("keycode.51".toList, "set_volume_30".toList),
   ("keycode.52".toList, "set_volume_40".toList),
   ("keycode.53".toList, "set_volume_50".toList),
   ("keycode.54".toList, "set_volume_60".toList),
   ("keycode.55".toList, "set_volume_70".toList),
   ("keycode.56".toList, "set_volume_80".toList),
   ("keycode.57".toList, "set_volume_90".toList),
   ("keycode.63".toList, "help".toList)]

/-! ## Vocabulary of the statements -/

/-- The scan does not stop inside `w`: no `\0`, line feed, carriage return or
`#` occurs in it. -/
def NoStop (w : Str) : Prop :=
  ∀ c ∈ w, c ≠ NUL ∧ c ≠ LF ∧ c ≠ CR ∧ c ≠ '#'

instance (w : Str) : Decidable (NoStop w) := by
  unfold NoStop
  infer_instance

/-- Plain text: no `=`, `#`, double quote, space, carriage return, line feed
or `\0` occurs in it. -/
def Plain (w : Str) : Prop :=
  ∀ c ∈ w, c ≠ '=' ∧ c ≠ '#' ∧ c ≠ DQ ∧ c ≠ ' ' ∧ c ≠ CR ∧ c ≠ LF ∧ c ≠ NUL

instance (w : Str) : Decidable (Plain w) := by
  unfold Plain
  infer_instance

/-- Several `current->append` in a row. -/
def LineState.appendAll (st : LineState) (w : Str) : LineState :=
  if st.inval then { st with val := st.val ++ w } else { st with key := st.key ++ w }

/-- The line `"a = b" = "c#d"`, double quotes included. -/
def quotedExample : Str := "\"a = b\" = \"c#d\"".toList

/-- The line `abc # note = x`. -/
def commentExample : Str := "abc # note = x".toList

/-- The line `" "=x`: a quoted space before the `=`. -/
def quotedSpaceExample : Str := "\" \"=x".toList

/-- The text begins, after optional leading white space and an optional
sign, with a decimal digit. -/
def beginsNumeric (v : Str) : Bool :=
  match v.dropWhile isspace with
  | [] => false
  | c :: cs =>
    if c = '-' ∨ c = '+' then
      match cs with
      | [] => false
      | c2 :: _ => isdigit c2
    else isdigit c

/-- The text `L` is a non-empty run of decimal digits whose value is `n`. -/
def Renders (L : Str) (n : Nat) : Prop :=
  L ≠ [] ∧ (∀ c ∈ L, isdigit c = true)
  ∧ ∀ acc rest, digitsVal acc (L ++ rest) = digitsVal (acc * 10 ^ L.length + n) rest

/-- An odd number of double quotes stands before position `i` of the line:
the position lies after an odd-numbered double quote and before the next
double quote, or the end of the line when that quote is not closed. -/
def afterOddQuote (line : Str) (i : Nat) : Bool :=
  (line.take i).count DQ % 2 = 1

/-- Position `i` lies between an odd-numbered double quote of the line and the
following even-numbered one: an odd number of double quotes stands before it
and a double quote follows it. -/
def insideQuotedSpan (line : Str) (i : Nat) : Bool :=
  afterOddQuote line i && (line.drop (i + 1)).contains DQ

/-- The rule "a double quote is never kept, a space is kept exactly when it is
quoted, every other character is kept", applied to the segment `seg` that
occupies the positions `i`, `i + 1`, ... of `line`; `quoted` tells which
positions of the line count as quoted. -/
def keptBy (quoted : Str → Nat → Bool) (line : Str) (i : Nat) (seg : Str) : Str :=
  ((seg.enumFrom i).filter
    (fun p => decide (p.2 ≠ DQ ∧ (p.2 = ' ' → quoted line p.1 = true)))).map Prod.snd

/-- Text that holds neither a `=` nor a `#` nor a line terminator. -/
def Clean (w : Str) : Prop :=
  ∀ c ∈ w, c ≠ '=' ∧ c ≠ '#' ∧ c ≠ NUL ∧ c ≠ LF ∧ c ≠ CR

instance (w : Str) : Decidable (Clean w) := by
  unfold Clean
  infer_instance

/-- Text made only of double quotes and of spaces that stand outside the
quotes of that text. -/
def BlankKeyText (pre : Str) : Prop :=
  ∀ p ∈ pre.enum, p.2 = DQ ∨ (p.2 = ' ' ∧ afterOddQuote pre p.1 = false)

instance (pre : Str) : Decidable (BlankKeyText pre) := by
  unfold BlankKeyText
  infer_instance

/-- The line `k="a b`, whose quote is not closed. -/
def openQuoteExample : Str := "k=\"a b".toList

/-- The parity of the double quotes of a text. -/
def oddQ (w : Str) : Bool := w.count DQ % 2 = 1

/-- The characters the scan appends while it runs over text without `=`, `#`
and terminators, from the quoting state `q`. -/
def keptRec : Bool → Str → Str
  | _, [] => []
  | q, c :: cs =>
    if c = DQ then keptRec (!q) cs
    else if c ≠ ' ' ∨ q = true then c :: keptRec q cs
    else keptRec q cs

/-- The quoting state after the scan has run over a text from the state `q`. -/
def quoteAfter : Bool → Str → Bool
  | q, [] => q
  | q, c :: cs => if c = DQ then quoteAfter (!q) cs else quoteAfter q cs

/-- Text without `=`, `#`, double quote, carriage return, line feed and
`\0`. -/
def Unmarked (w : Str) : Prop :=
  ∀ c ∈ w, c ≠ '=' ∧ c ≠ '#' ∧ c ≠ DQ ∧ c ≠ CR ∧ c ≠ LF ∧ c ≠ NUL

instance (w : Str) : Decidable (Unmarked w) := by
  unfold Unmarked
  infer_instance

/-- The value yielded by the last line of `lines` whose tokenized key is
`k`, if there is such a line. -/
def lastYield : List Str → Str → Option Str
  | [], _ => none
  | l :: ls, k =>
    match lastYield ls k with
    | some v => some v
    | none =>
      match tokenize l with
      | some (k2, v) => if k2 = k then some v else none
      | none => none

/-- The invariant of the store: the keys ascend strictly, so every key
occurs once. -/
def Ordered (m : config_map) : Prop :=
  m.Pairwise (fun a b => strLt a.1 b.1 = true)

instance (m : config_map) : Decidable (Ordered m) := by
  unfold Ordered
  infer_instance

/-- The plain line `K=V` with a key of 300 letters `a` and the value `b`. -/
def longKeyExample : Str := List.replicate 300 'a' ++ '=' :: "b".toList

/-- A `keyname` that names the codes 27 and 113 and returns the null
pointer for every other code, as curses does for the code 256. -/
def keynameSample (k : Int) : Option Str :=
  if k = 27 then some "^[".toList
  else if k = 113 then some "q".toList
  else none

/-- The map the loop of `getKeycodeNameEvents` builds when the name of every
key is given by the function `nm`. -/
def eventsOf (nm : Str → Str) (config : config_map) : config_map :=
  config.foldl
    (fun keycodes it => if nm it.1 = [] then keycodes else assign keycodes (nm it.1) it.2)
    []

end Config

/-! ## Lemmas on the store -/

namespace Config

theorem find_assign_self (m : config_map) (key val : Str) :
    find (assign m key val) key = some val := by
  induction m with
  | nil => simp [assign, find]
  | cons p m ih =>
    obtain ⟨k, v⟩ := p
    by_cases h1 : key = k
    · simp [assign, find, h1]
    · by_cases h2 : strLt key k = true
      · simp [assign, find, h1, h2]
      · simp [assign, find, h1, h2, ih]

theorem find_assign_other (m : config_map) (key val other : Str) (h : other ≠ key) :
    find (assign m key val) other = find m other := by
  induction m with
  | nil => simp [assign, find, h]
  | cons p m ih =>
    obtain ⟨k, v⟩ := p
    by_cases h1 : key = k
    · subst h1
      simp [assign, find, h]
    · by_cases h2 : strLt key k = true
      · simp [assign, find, h1, h2, h]
      · simp [assign, find, h1, h2, ih]

/-! ## Lemmas on the scan of a line -/

theorem scan_append (pre rest : Str) (st : LineState) (h : NoStop pre) :
    scan (pre ++ rest) st = scan rest (scan pre st) := by
  induction pre generalizing st with
  | nil => simp [scan]
  | cons c cs ih =>
    have hc := h c (List.mem_cons_self c cs)
    have hcs : NoStop cs := fun x hx => h x (List.mem_cons_of_mem c hx)
    simp only [List.cons_append, scan]
    simp only [hc.1, hc.2.1, hc.2.2.1, hc.2.2.2, or_self, if_false]
    split
    · exact ih _ hcs
    · split
      · exact ih _ hcs
      · split
        · exact ih _ hcs
        · exact ih _ hcs

theorem scan_hash (pre post : Str) (st : LineState) :
    scan (pre ++ '#' :: post) st = scan pre st := by
  induction pre generalizing st with
  | nil => simp [scan, NUL, LF, CR]
  | cons c cs ih =>
    simp only [List.cons_append, scan]
    split
    · rfl
    · split
      · exact ih _
      · split
        · rfl
        · split
          · exact ih _
          · split
            · exact ih _
            · exact ih _

/-- The scan stops at a `\0`, a line feed or a carriage return: what follows
the terminator plays no part. -/
theorem scan_terminator (pre rest : Str) (t : Char) (st : LineState)
    (ht : t = NUL ∨ t = LF ∨ t = CR) :
    scan (pre ++ t :: rest) st = scan pre st := by
  induction pre generalizing st with
  | nil => simp [scan, ht]
  | cons c cs ih =>
    simp only [List.cons_append, scan]
    split
    · rfl
    · split
      · exact ih _
      · split
        · rfl
        · split
          · exact ih _
          · split
            · exact ih _
            · exact ih _

/-- The buffer `fgets` fills holds the line with its terminator; the scan
of the buffer is the scan of the line without it. -/
theorem scanLine_terminated (line rest : Str) (t : Char) (ht : t = NUL ∨ t = LF ∨ t = CR) :
    scanLine (line ++ t :: rest) = scanLine line :=
  scan_terminator line rest t _ ht

theorem scan_plain (w : Str) (st : LineState) (h : Plain w) :
    scan w st = st.appendAll w := by
  induction w generalizing st with
  | nil =>
    cases st
    simp [scan, LineState.appendAll]
  | cons c cs ih =>
    have hc := h c (List.mem_cons_self c cs)
    have hcs : Plain cs := fun x hx => h x (List.mem_cons_of_mem c hx)
    simp only [scan]
    simp only [hc.1, hc.2.1, hc.2.2.1, hc.2.2.2.1, hc.2.2.2.2.1, hc.2.2.2.2.2.1,
      hc.2.2.2.2.2.2, or_self, if_false, ne_eq, not_false_eq_true, true_or, if_true]
    rw [ih _ hcs]
    cases st with
    | mk i v k l =>
      cases v <;> simp [LineState.append, LineState.appendAll]

theorem Plain.noStop {w : Str} (h : Plain w) : NoStop w :=
  fun c hc => ⟨(h c hc).2.2.2.2.2.2, (h c hc).2.2.2.2.2.1, (h c hc).2.2.2.2.1, (h c hc).2.1⟩

theorem scan_spaces (w : Str) (st : LineState) (h : ∀ c ∈ w, c = ' ')
    (hq : st.instring = false) : scan w st = st := by
  induction w with
  | nil => simp [scan]
  | cons c cs ih =>
    have hc := h c (List.mem_cons_self c cs)
    subst hc
    simp only [scan]
    simp [NUL, LF, CR, DQ, hq]
    exact ih (fun x hx => h x (List.mem_cons_of_mem _ hx))

theorem append_inval (st : LineState) (c : Char) : (st.append c).inval = st.inval := by
  unfold LineState.append
  split <;> rfl

theorem append_val_of_key (st : LineState) (c : Char) (h : st.inval = false) :
    (st.append c).val = st.val := by
  simp [LineState.append, h]

/-- Without a `=` the target stays the key, so the value is left alone. -/
theorem scan_no_eq (w : Str) (st : LineState) (h : '=' ∉ w) (hv : st.inval = false) :
    (scan w st).inval = false ∧ (scan w st).val = st.val := by
  induction w generalizing st with
  | nil => simp [scan, hv]
  | cons c cs ih =>
    have hc : c ≠ '=' := fun e => h (by simp [e])
    have hcs : '=' ∉ cs := fun e => h (List.mem_cons_of_mem _ e)
    by_cases ht : c = NUL ∨ c = LF ∨ c = CR
    · simp [scan, ht, hv]
    · by_cases hh : c = '#'
      · simp [scan, ht, hc, hh, hv]
      · by_cases hd : c = DQ
        · simp only [scan, ht, hc, hh, hd, if_true, if_false]
          exact ih _ hcs hv
        · by_cases hs : c ≠ ' ' ∨ st.instring = true
          · simp only [scan, ht, hc, hh, hd, hs, if_true, if_false]
            have := ih (st.append c) hcs (by rw [append_inval]; exact hv)
            rw [append_val_of_key st c hv] at this
            exact this
          · simp only [scan, ht, hc, hh, hd, hs, if_true, if_false]
            exact ih _ hcs hv

theorem loadLine_eq (config : config_map) (line : Str) :
    loadLine config line =
      match tokenize line with
      | some (k, v) => assign config k v
      | none => config := by
  unfold loadLine tokenize
  simp only
  split <;> rfl

/-! ## Lemmas on the loop over the file -/

/-- A line shorter than the budget, followed by its line feed, is read by
`fgets` in one piece. -/
theorem fgets_line (line rest : Str) (k : Nat) (hlf : LF ∉ line) (hlen : line.length < k) :
    fgets k (line ++ LF :: rest) = (line ++ [LF], rest) := by
  induction line generalizing k with
  | nil =>
    cases k with
    | zero => omega
    | succ k => simp [fgets]
  | cons c cs ih =>
    cases k with
    | zero => omega
    | succ k =>
      have hc : c ≠ LF := fun e => hlf (by simp [e])
      have hcs : LF ∉ cs := fun e => hlf (List.mem_cons_of_mem _ e)
      have hk : cs.length < k := by simpa using hlen
      simp [fgets, hc, ih k hcs hk]

/-- A file that holds one line of fewer than `MAX_LINE - 1` characters and
its line feed is loaded by one round of the loop. -/
theorem readConfig_one_line (line : Str) (config : config_map)
    (hlf : LF ∉ line) (hlen : line.length < MAX_LINE - 1) :
    readConfig (some (line ++ [LF])) config = (1, loadLine config line) := by
  have hf := fgets_line line [] (MAX_LINE - 1) hlf hlen
  have hne : line ++ [LF] ≠ [] := by simp
  have hscan : scanLine (line ++ [LF]) = scanLine line :=
    scanLine_terminated line [] LF (Or.inr (Or.inl rfl))
  have hload : loadLine config (line ++ [LF]) = loadLine config line := by
    simp [loadLine, hscan]
  simp only [readConfig, List.length_append, List.length_singleton, readLoop, hne, if_false, hf,
    hload]
  cases line.length + 1 <;> simp [readLoop]

/-! ## Lemmas on quoting -/

theorem oddQ_snoc (pre : Str) (c : Char) :
    oddQ (pre ++ [c]) = if c = DQ then !oddQ pre else oddQ pre := by
  unfold oddQ
  by_cases h : c = DQ
  · simp only [List.count_append, List.count_singleton, h, beq_self_eq_true, if_true]
    by_cases h2 : List.count DQ pre % 2 = 1
    · have : ¬ ((List.count DQ pre + 1) % 2 = 1) := by omega
      simp [h2, this]
    · have : (List.count DQ pre + 1) % 2 = 1 := by omega
      simp [h2, this]
  · simp [List.count_append, List.count_singleton, h]

theorem afterOddQuote_length (pre rest : Str) :
    afterOddQuote (pre ++ rest) pre.length = oddQ pre := by
  simp [afterOddQuote, oddQ, List.take_left]

theorem appendAll_append (st : LineState) (c : Char) (w : Str) (q : Bool) :
    ({ st.append c with instring := q } : LineState).appendAll w
      = ({ st with instring := q } : LineState).appendAll (c :: w) := by
  cases st with
  | mk i v k l => cases v <;> simp [LineState.append, LineState.appendAll]

theorem appendAll_nil (st : LineState) : st.appendAll [] = st := by
  cases st with
  | mk i v k l => cases v <;> simp [LineState.appendAll]

theorem append_instring (st : LineState) (c : Char) :
    (st.append c).instring = st.instring := by
  unfold LineState.append
  split <;> rfl

theorem scan_cons_DQ (rest : Str) (st : LineState) :
    scan (DQ :: rest) st = scan rest { st with instring := !st.instring } := by
  simp [scan, DQ, NUL, LF, CR]

theorem scan_cons_eq (rest : Str) (st : LineState) :
    scan ('=' :: rest) st = scan rest { st with inval := true } := by
  simp [scan, NUL, LF, CR]

theorem scan_cons_other (c : Char) (rest : Str) (st : LineState)
    (ht : ¬ (c = NUL ∨ c = LF ∨ c = CR)) (he : c ≠ '=') (hh : c ≠ '#') (hd : c ≠ DQ) :
    scan (c :: rest) st
      = if c ≠ ' ' ∨ st.instring = true then scan rest (st.append c) else scan rest st := by
  simp only [scan, ht, he, hh, hd, if_false]

/-- Over clean text the scan runs to the end and appends what `keptRec`
lists. -/
theorem scan_clean (seg : Str) (st : LineState) (h : Clean seg) :
    scan seg st
      = ({ st with instring := quoteAfter st.instring seg } : LineState).appendAll
          (keptRec st.instring seg) := by
  induction seg generalizing st with
  | nil => simp [scan, quoteAfter, keptRec, appendAll_nil]
  | cons c cs ih =>
    have hc := h c (List.mem_cons_self c cs)
    have hcs : Clean cs := fun x hx => h x (List.mem_cons_of_mem c hx)
    have ht : ¬ (c = NUL ∨ c = LF ∨ c = CR) := by
      simp [hc.2.2.1, hc.2.2.2.1, hc.2.2.2.2]
    by_cases hd : c = DQ
    · subst hd
      rw [scan_cons_DQ, ih _ hcs]
      simp [quoteAfter, keptRec]
    · rw [scan_cons_other c cs st ht hc.1 hc.2.1 hd]
      by_cases hs : c ≠ ' ' ∨ st.instring = true
      · rw [if_pos hs, ih _ hcs, append_instring]
        simp only [quoteAfter, keptRec, hd, hs, if_true, if_false]
        exact appendAll_append st c _ _
      · rw [if_neg hs, ih _ hcs]
        simp only [quoteAfter, keptRec, hd, hs, if_true, if_false]

theorem quoteAfter_oddQ (pre seg : Str) :
    quoteAfter (oddQ pre) seg = oddQ (pre ++ seg) := by
  induction seg generalizing pre with
  | nil => simp [quoteAfter]
  | cons c cs ih =>
    have e : pre ++ c :: cs = (pre ++ [c]) ++ cs := by simp
    rw [e, ← ih (pre ++ [c]), oddQ_snoc]
    by_cases hd : c = DQ <;> simp [quoteAfter, hd]

/-- The positional rule and the scan keep the same characters. -/
theorem keptBy_eq_keptRec (seg pre rest : Str) :
    keptBy afterOddQuote (pre ++ seg ++ rest) pre.length seg = keptRec (oddQ pre) seg := by
  induction seg generalizing pre with
  | nil => simp [keptBy, keptRec]
  | cons c cs ih =>
    have e : pre ++ c :: cs ++ rest = (pre ++ [c]) ++ cs ++ rest := by simp
    have hl : pre.length + 1 = (pre ++ [c]).length := by simp
    have hq : afterOddQuote ((pre ++ [c]) ++ cs ++ rest) pre.length = oddQ pre := by
      rw [← e, List.append_assoc]
      exact afterOddQuote_length pre _
    have ih2 := ih (pre ++ [c])
    rw [oddQ_snoc] at ih2
    unfold keptBy at ih2 ⊢
    rw [List.enumFrom_cons, List.filter_cons, hl, e]
    simp only [hq]
    by_cases hd : c = DQ
    · have hk : ¬ (decide (c ≠ DQ ∧ (c = ' ' → oddQ pre = true)) = true) :=
        fun hk => (of_decide_eq_true hk).1 hd
      rw [if_neg hk, ih2]
      simp [keptRec, hd]
    · by_cases hs : c ≠ ' ' ∨ oddQ pre = true
      · have hk : decide (c ≠ DQ ∧ (c = ' ' → oddQ pre = true)) = true := by
          apply decide_eq_true
          refine ⟨hd, fun hsp => ?_⟩
          rcases hs with hs | hs
          · exact absurd hsp hs
          · exact hs
        rw [if_pos hk, List.map_cons, ih2]
        simp only [keptRec, hd, hs, if_true, if_false]
      · have hk : ¬ (decide (c ≠ DQ ∧ (c = ' ' → oddQ pre = true)) = true) := by
          intro hk
          have hk := of_decide_eq_true hk
          apply hs
          by_cases hsp : c = ' '
          · exact Or.inr (hk.2 hsp)
          · exact Or.inl hsp
        rw [if_neg hk, ih2]
        simp only [keptRec, hd, hs, if_true, if_false]

theorem keptRec_blank (seg pre : Str)
    (h : ∀ p ∈ seg.enumFrom pre.length,
      p.2 = DQ ∨ (p.2 = ' ' ∧ afterOddQuote (pre ++ seg) p.1 = false)) :
    keptRec (oddQ pre) seg = [] := by
  induction seg generalizing pre with
  | nil => simp [keptRec]
  | cons c cs ih =>
    have e : pre ++ c :: cs = (pre ++ [c]) ++ cs := by simp
    have hl : pre.length + 1 = (pre ++ [c]).length := by simp
    have hhead := h (pre.length, c) (by simp [List.enumFrom_cons])
    have htail : ∀ p ∈ cs.enumFrom (pre ++ [c]).length,
        p.2 = DQ ∨ (p.2 = ' ' ∧ afterOddQuote ((pre ++ [c]) ++ cs) p.1 = false) := by
      intro p hp
      rw [← e]
      apply h p
      rw [List.enumFrom_cons, hl]
      exact List.mem_cons_of_mem _ hp
    have ih2 := ih (pre ++ [c]) htail
    rw [oddQ_snoc] at ih2
    rcases hhead with hd | ⟨hsp, hq⟩
    · simp only at hd
      simp only [hd, if_true] at ih2
      simp [keptRec, hd, ih2]
    · simp only at hsp hq
      rw [afterOddQuote_length] at hq
      have hd : c ≠ DQ := by rw [hsp]; decide
      simp only [hd, if_false] at ih2
      simp [keptRec, hd, hsp, hq, ih2]
      simpa [hq] using ih2

theorem append_key_of_val (st : LineState) (c : Char) (h : st.inval = true) :
    (st.append c).key = st.key := by
  simp [LineState.append, h]

/-- Once the target is the value the key is final. -/
theorem scan_key_of_inval (w : Str) (st : LineState) (h : st.inval = true) :
    (scan w st).key = st.key := by
  induction w generalizing st with
  | nil => simp [scan]
  | cons c cs ih =>
    by_cases ht : c = NUL ∨ c = LF ∨ c = CR
    · simp [scan, ht]
    · by_cases he : c = '='
      · subst he
        rw [scan_cons_eq]
        exact ih _ rfl
      · by_cases hh : c = '#'
        · simp [scan, ht, he, hh]
        · by_cases hd : c = DQ
          · subst hd
            rw [scan_cons_DQ]
            exact ih _ h
          · rw [scan_cons_other c cs st ht he hh hd]
            split
            · rw [ih _ (by rw [append_inval]; exact h), append_key_of_val st c h]
            · exact ih _ h

theorem BlankKeyText.clean {pre : Str} (h : BlankKeyText pre) : Clean pre := by
  intro c hc
  obtain ⟨i, hi⟩ := List.mem_iff_get.mp hc
  have hmem : (i.1, c) ∈ pre.enum := by
    rw [List.mk_mem_enum_iff_getElem?]
    rw [← hi]
    simp
  have := h (i.1, c) hmem
  rcases this with hd | ⟨hs, _⟩
  · simp only at hd
    rw [hd]
    decide
  · simp only at hs
    rw [hs]
    decide

/-! ## The tokenizer: quoting, comments and `=` -/

/-- C1, counterexample: the line `"a = b" = "c#d"` does not yield the key
`a = b` with the value `c#d`. -/
theorem C1_counterexample :
    tokenize quotedExample ≠ some ("a = b".toList, "c#d".toList) := by
  decide

/-- C1, amended: quoting preserves interior spaces only. The line
`"a = b" = "c#d"` yields the key `a ` and the value ` bc`; whatever the
quoting state reached before it, a `#` ends the scan of the line and a `=`
switches the target to the value, and neither character is appended; a space
reached in the quoted state is appended to the active target. -/
theorem C1_quotes_keep_only_spaces (pre post : Str) :
    tokenize quotedExample = some ("a ".toList, " bc".toList)
    ∧ scanLine (pre ++ '#' :: post) = scanLine pre
    ∧ (NoStop pre →
        scanLine (pre ++ '=' :: post) = scan post { scanLine pre with inval := true })
    ∧ (NoStop pre → (scanLine pre).instring = true →
        scanLine (pre ++ ' ' :: post) = scan post ((scanLine pre).append ' ')) := by
  refine ⟨by decide, scan_hash pre post _, fun h => ?_, fun h hq => ?_⟩
  · unfold scanLine
    rw [scan_append pre _ _ h, scan_cons_eq]
  · unfold scanLine at hq ⊢
    rw [scan_append pre _ _ h,
      scan_cons_other ' ' post _ (by decide) (by decide) (by decide) (by decide)]
    simp [hq]

/-- C1, witness: inside the open quote of `"a ` the `=` still switches to
the value, and a space is appended. -/
theorem C1_quotes_keep_only_spaces_witness :
    NoStop (DQ :: "a ".toList)
    ∧ (scanLine (DQ :: "a ".toList)).instring = true
    ∧ scanLine ((DQ :: "a ".toList) ++ '=' :: " b".toList)
        = scan " b".toList { scanLine (DQ :: "a ".toList) with inval := true }
    ∧ scanLine ((DQ :: "a ".toList) ++ ' ' :: "b".toList)
        = scan "b".toList ((scanLine (DQ :: "a ".toList)).append ' ') :=
  ⟨by decide, by decide,
    (C1_quotes_keep_only_spaces (DQ :: "a ".toList) " b".toList).2.2.1 (by decide),
    (C1_quotes_keep_only_spaces (DQ :: "a ".toList) "b".toList).2.2.2 (by decide) (by decide)⟩

/-- C2: for a non-empty plain key `K` and a plain value `V` the line `K=V`
yields exactly the pair `(K, V)`, with or without the line terminator that
`fgets` leaves in the buffer, and loading the line performs `config[K] = V`,
after which `K` is bound to `V`; so does `readConfig` on a file that holds
this one line, when the line fits the buffer. -/
theorem C2_plain_line (K V : Str) (config : config_map)
    (hK : K ≠ []) (hKp : Plain K) (hVp : Plain V) :
    tokenize (K ++ '=' :: V) = some (K, V)
    ∧ tokenize ((K ++ '=' :: V) ++ [LF]) = some (K, V)
    ∧ loadLine config (K ++ '=' :: V) = assign config K V
    ∧ find (loadLine config (K ++ '=' :: V)) K = some V
    ∧ ((K ++ '=' :: V).length < MAX_LINE - 1 →
        readConfig (some ((K ++ '=' :: V) ++ [LF])) config = (1, assign config K V)) := by
  have hscan : scanLine (K ++ '=' :: V) = ⟨false, true, K, V⟩ := by
    unfold scanLine
    rw [scan_append K _ _ hKp.noStop, scan_plain K _ hKp]
    simp only [scan]
    simp [NUL, LF, CR, LineState.appendAll, LineState.init, scan_plain V _ hVp]
  have hlen : K.length > 0 := List.length_pos.mpr hK
  have htok : tokenize (K ++ '=' :: V) = some (K, V) := by
    simp [tokenize, hscan, hlen]
  have htok2 : tokenize ((K ++ '=' :: V) ++ [LF]) = some (K, V) := by
    unfold tokenize
    rw [scanLine_terminated _ [] LF (Or.inr (Or.inl rfl))]
    simp [hscan, hlen]
  have hload : loadLine config (K ++ '=' :: V) = assign config K V := by
    simp [loadLine, hscan, hlen]
  have hlf : LF ∉ K ++ '=' :: V := by
    intro hmem
    rcases List.mem_append.mp hmem with h | h
    · exact (hKp LF h).2.2.2.2.2.1 rfl
    · rcases List.mem_cons.mp h with h | h
      · revert h
        decide
      · exact (hVp LF h).2.2.2.2.2.1 rfl
  refine ⟨htok, htok2, hload, by rw [hload]; exact find_assign_self _ _ _, fun hshort => ?_⟩
  rw [readConfig_one_line _ config hlf hshort, hload]

/-- C2, witness: the line `theme=default`. -/
theorem C2_plain_line_witness :
    "theme".toList ≠ [] ∧ Plain "theme".toList ∧ Plain "default".toList
    ∧ tokenize ("theme".toList ++ '=' :: "default".toList)
        = some ("theme".toList, "default".toList)
    ∧ ("theme".toList ++ '=' :: "default".toList).length < MAX_LINE - 1
    ∧ readConfig (some (("theme".toList ++ '=' :: "default".toList) ++ [LF])) []
        = (1, assign [] "theme".toList "default".toList) :=
  ⟨by decide, by decide, by decide,
    (C2_plain_line "theme".toList "default".toList [] (by decide) (by decide) (by decide)).1,
    by decide,
    (C2_plain_line "theme".toList "default".toList [] (by decide) (by decide)
      (by decide)).2.2.2.2 (by decide)⟩

/-- C3, counterexample: the line `abc # note = x` has its `#` before any
`=`, yet it yields the entry `abc` with an empty value and loading it into
the empty store adds that entry. -/
theorem C3_counterexample :
    tokenize commentExample = some ("abc".toList, [])
    ∧ loadLine [] commentExample = [("abc".toList, [])]
    ∧ loadLine [] commentExample ≠ [] := by
  decide

/-- C3, amended: a `#` cuts the line, which yields what the text before the
`#` yields. When no `=` occurs before the `#` the value is empty and the key
is the key text accumulated before the `#`: without such text (as when only
spaces precede the `#`) there is no entry and loading leaves the store
unchanged, with such text (as for a plain word followed by spaces) the entry
is that key with the empty value. -/
theorem C3_hash_before_eq (pre post : Str) (config : config_map) (h : '=' ∉ pre) :
    tokenize (pre ++ '#' :: post) = tokenize pre
    ∧ loadLine config (pre ++ '#' :: post) = loadLine config pre
    ∧ (scanLine (pre ++ '#' :: post)).val = []
    ∧ ((scanLine pre).key = [] →
        tokenize (pre ++ '#' :: post) = none ∧ loadLine config (pre ++ '#' :: post) = config)
    ∧ ((scanLine pre).key ≠ [] →
        tokenize (pre ++ '#' :: post) = some ((scanLine pre).key, [])
        ∧ loadLine config (pre ++ '#' :: post) = assign config (scanLine pre).key [])
    ∧ ((∀ c ∈ pre, c = ' ') → (scanLine pre).key = [])
    ∧ (∀ K sp : Str, pre = K ++ sp → Plain K → (∀ c ∈ sp, c = ' ') →
        (scanLine pre).key = K) := by
  have hcut : scanLine (pre ++ '#' :: post) = scanLine pre := scan_hash pre post _
  have hval : (scanLine pre).val = [] := (scan_no_eq pre LineState.init h rfl).2
  refine ⟨by simp [tokenize, hcut], by simp [loadLine, hcut], by rw [hcut, hval], ?_, ?_, ?_, ?_⟩
  · intro hk
    simp [tokenize, loadLine, hcut, hk]
  · intro hk
    have hlen : (scanLine pre).key.length > 0 := List.length_pos.mpr hk
    simp [tokenize, loadLine, hcut, hlen, hval]
  · intro hsp
    unfold scanLine
    rw [scan_spaces pre _ hsp rfl]
    rfl
  · intro K sp hpre hK hsp
    subst hpre
    unfold scanLine
    rw [scan_append K sp _ hK.noStop, scan_plain K _ hK]
    rw [scan_spaces sp _ hsp (by simp [LineState.appendAll, LineState.init])]
    simp [LineState.appendAll, LineState.init]

/-- C3, witness: in `abc # note = x` the text before the `#` is the plain
word `abc` followed by a space. -/
theorem C3_hash_before_eq_witness :
    '=' ∉ "abc ".toList
    ∧ (scanLine ("abc ".toList ++ '#' :: " note = x".toList)).val = []
    ∧ (scanLine "abc ".toList).key = "abc".toList :=
  ⟨by decide,
    (C3_hash_before_eq "abc ".toList " note = x".toList [] (by decide)).2.2.1,
    (C3_hash_before_eq "abc ".toList " note = x".toList [] (by decide)).2.2.2.2.2.2
      "abc".toList " ".toList (by decide) (by decide) (by decide)⟩

/-- C4, counterexample: the line `a=b=c` does not yield the value `b=c`; it
yields `bc`. -/
theorem C4_counterexample :
    tokenize "a=b=c".toList ≠ some ("a".toList, "b=c".toList)
    ∧ tokenize "a=b=c".toList = some ("a".toList, "bc".toList) := by
  decide

/-- C4, amended: the first `=` switches the target from key to value and
every later `=` is dropped: for a non-empty plain `K` and plain `V1`, `V2` the
line `K=V1=V2` yields the pair `(K, V1 V2)`. -/
theorem C4_later_eq_dropped (K V1 V2 : Str)
    (hK : K ≠ []) (hKp : Plain K) (h1 : Plain V1) (h2 : Plain V2) :
    tokenize (K ++ '=' :: (V1 ++ '=' :: V2)) = some (K, V1 ++ V2) := by
  have hscan : scanLine (K ++ '=' :: (V1 ++ '=' :: V2)) = ⟨false, true, K, V1 ++ V2⟩ := by
    unfold scanLine
    rw [scan_append K _ _ hKp.noStop, scan_plain K _ hKp]
    simp only [scan]
    simp only [NUL, LF, CR, LineState.appendAll, LineState.init]
    simp only [show ¬ ('=' = Char.ofNat 0 ∨ '=' = Char.ofNat 10 ∨ '=' = Char.ofNat 13) by decide,
      if_false, if_true]
    rw [scan_append V1 _ _ h1.noStop, scan_plain V1 _ h1]
    simp only [scan]
    simp only [NUL, LF, CR, LineState.appendAll]
    simp only [show ¬ ('=' = Char.ofNat 0 ∨ '=' = Char.ofNat 10 ∨ '=' = Char.ofNat 13) by decide,
      if_false, if_true]
    rw [scan_plain V2 _ h2]
    simp [LineState.appendAll]
  have hlen : K.length > 0 := List.length_pos.mpr hK
  simp [tokenize, hscan, hlen]

/-- C4, witness: the line `a=b=c` yields `a` with `bc`. -/
theorem C4_later_eq_dropped_witness :
    "a".toList ≠ [] ∧ Plain "a".toList ∧ Plain "b".toList ∧ Plain "c".toList
    ∧ tokenize ("a".toList ++ '=' :: ("b".toList ++ '=' :: "c".toList))
        = some ("a".toList, "b".toList ++ "c".toList) :=
  ⟨by decide, by decide, by decide, by decide,
    C4_later_eq_dropped "a".toList "b".toList "c".toList
      (by decide) (by decide) (by decide) (by decide)⟩

/-- C5, counterexample: in the line `" "=x` the text before the `=` is made
of a space and two double quotes only, yet the line yields an entry, whose
key is one space. -/
theorem C5_counterexample :
    quotedSpaceExample = [DQ, ' ', DQ] ++ '=' :: "x".toList
    ∧ (∀ c ∈ [DQ, ' ', DQ], c = ' ' ∨ c = DQ)
    ∧ tokenize quotedSpaceExample = some (" ".toList, "x".toList)
    ∧ loadLine [] quotedSpaceExample ≠ [] := by
  decide

/-- C5, amended: a line yields an entry exactly when the key accumulated by
the scan is not empty, and the entry is that key with the accumulated value,
which may be empty. A non-empty plain word `K` without `=` yields `(K, "")`;
the empty line, a line that starts with `#`, and a line whose text before the
first `=` is made only of double quotes and of spaces outside quotes yield no
entry and leave the store unchanged. -/
theorem C5_entry_iff_key (line : Str) (config : config_map) :
    ((tokenize line).isSome = true ↔ (scanLine line).key ≠ [])
    ∧ ((scanLine line).key ≠ [] →
        tokenize line = some ((scanLine line).key, (scanLine line).val))
    ∧ ((scanLine line).key = [] → tokenize line = none ∧ loadLine config line = config)
    ∧ (∀ K : Str, K ≠ [] → Plain K → tokenize K = some (K, []))
    ∧ (tokenize [] = none ∧ loadLine config [] = config)
    ∧ (∀ rest : Str, tokenize ('#' :: rest) = none ∧ loadLine config ('#' :: rest) = config)
    ∧ (∀ pre post : Str, BlankKeyText pre →
        tokenize (pre ++ '=' :: post) = none
        ∧ loadLine config (pre ++ '=' :: post) = config) := by
  have hnone : ∀ l : Str, (scanLine l).key = [] → tokenize l = none ∧ loadLine config l = config := by
    intro l hl
    simp [tokenize, loadLine, hl]
  refine ⟨?_, ?_, hnone line, ?_, hnone [] rfl, fun rest => hnone _ ?_, ?_⟩
  · unfold tokenize
    by_cases hk : (scanLine line).key = []
    · simp [hk]
    · simp [hk, List.length_pos.mpr hk]
  · intro hk
    simp [tokenize, List.length_pos.mpr hk]
  · intro K hK hKp
    have : scanLine K = ⟨false, false, K, []⟩ := by
      unfold scanLine
      rw [scan_plain K _ hKp]
      simp [LineState.appendAll, LineState.init]
    simp [tokenize, this, List.length_pos.mpr hK]
  · simp [scanLine, scan, NUL, LF, CR, LineState.init]
  · intro pre post hpre
    apply hnone
    have hclean := hpre.clean
    have hnostop : NoStop pre := fun c hc =>
      ⟨(hclean c hc).2.2.1, (hclean c hc).2.2.2.1, (hclean c hc).2.2.2.2, (hclean c hc).2.1⟩
    have hrec : keptRec (oddQ []) pre = [] := by
      apply keptRec_blank pre []
      intro p hp
      exact hpre p hp
    unfold scanLine
    rw [scan_append pre _ _ hnostop, scan_cons_eq, scan_key_of_inval _ _ rfl,
      scan_clean pre _ hclean]
    have : oddQ [] = false := by decide
    rw [this] at hrec
    simp [LineState.appendAll, LineState.init, hrec]

/-- C5, witness: the word `mute` yields `(mute, "")`, and the line ` "" =x`,
whose text before the `=` is two spaces outside an empty pair of quotes,
yields nothing. -/
theorem C5_entry_iff_key_witness :
    "mute".toList ≠ [] ∧ Plain "mute".toList
    ∧ tokenize "mute".toList = some ("mute".toList, [])
    ∧ BlankKeyText [' ', DQ, DQ, ' ']
    ∧ tokenize ([' ', DQ, DQ, ' '] ++ '=' :: "x".toList) = none :=
  ⟨by decide, by decide,
    (C5_entry_iff_key [] []).2.2.2.1 "mute".toList (by decide) (by decide),
    by decide,
    ((C5_entry_iff_key [] []).2.2.2.2.2.2 [' ', DQ, DQ, ' '] "x".toList (by decide)).1⟩

/-- C6, counterexample: in the line `k="a b` the space at position 4 follows
the only double quote, so it does not lie between an odd-numbered double
quote and the following even-numbered one; the rule of the claim gives the
value `ab`, the scan keeps the space and gives `a b`. -/
theorem C6_counterexample :
    openQuoteExample = "k".toList ++ '=' :: (DQ :: "a b".toList)
    ∧ openQuoteExample[4]? = some ' '
    ∧ insideQuotedSpan openQuoteExample 4 = false
    ∧ keptBy insideQuotedSpan openQuoteExample 2 (DQ :: "a b".toList) = "ab".toList
    ∧ tokenize openQuoteExample = some ("k".toList, "a b".toList) := by
  decide

/-- C6, amended: in a line `A=B` whose parts `A` and `B` hold no `=`, no `#`
and no line terminator, the key is `A` and the value is `B` without their
double quotes and without the spaces that have an even number of double
quotes before them in the line; a space is kept exactly when an odd number
of double quotes stands before it (closed or not), a double quote is never
kept, every other character is kept. -/
theorem C6_spaces_kept_iff_quoted (A B : Str) (hA : Clean A) (hB : Clean B) :
    (scanLine (A ++ '=' :: B)).key = keptBy afterOddQuote (A ++ '=' :: B) 0 A
    ∧ (scanLine (A ++ '=' :: B)).val
        = keptBy afterOddQuote (A ++ '=' :: B) (A.length + 1) B
    ∧ tokenize (A ++ '=' :: B)
        = if keptBy afterOddQuote (A ++ '=' :: B) 0 A = [] then none
          else some (keptBy afterOddQuote (A ++ '=' :: B) 0 A,
            keptBy afterOddQuote (A ++ '=' :: B) (A.length + 1) B) := by
  have hnostop : NoStop A := fun c hc =>
    ⟨(hA c hc).2.2.1, (hA c hc).2.2.2.1, (hA c hc).2.2.2.2, (hA c hc).2.1⟩
  have hkA : keptBy afterOddQuote (A ++ '=' :: B) 0 A = keptRec false A := by
    have := keptBy_eq_keptRec A [] ('=' :: B)
    simpa [oddQ] using this
  have hkB : keptBy afterOddQuote (A ++ '=' :: B) (A.length + 1) B
      = keptRec (oddQ A) B := by
    have := keptBy_eq_keptRec B (A ++ ['=']) []
    rw [oddQ_snoc] at this
    simpa using this
  have hqa : quoteAfter false A = oddQ A := by
    have := quoteAfter_oddQ [] A
    simpa [oddQ] using this
  have hscan : scanLine (A ++ '=' :: B)
      = ⟨quoteAfter (oddQ A) B, true, keptRec false A, keptRec (oddQ A) B⟩ := by
    unfold scanLine
    rw [scan_append A _ _ hnostop, scan_cons_eq, scan_clean A _ hA, scan_clean B _ hB]
    simp [LineState.appendAll, LineState.init, hqa]
  rw [hkA, hkB]
  refine ⟨by rw [hscan], by rw [hscan], ?_⟩
  unfold tokenize
  rw [hscan]
  by_cases hk : keptRec false A = []
  · simp [hk]
  · simp [hk, List.length_pos.mpr hk]

/-- C6, witness: the line ` "a b" c = "d e" f` yields `a bc` and `d ef`. -/
theorem C6_spaces_kept_iff_quoted_witness :
    Clean (' ' :: DQ :: "a b".toList ++ DQ :: " c ".toList)
    ∧ Clean (' ' :: DQ :: "d e".toList ++ DQ :: " f".toList)
    ∧ keptBy afterOddQuote
        ((' ' :: DQ :: "a b".toList ++ DQ :: " c ".toList)
          ++ '=' :: (' ' :: DQ :: "d e".toList ++ DQ :: " f".toList))
        0 (' ' :: DQ :: "a b".toList ++ DQ :: " c ".toList) = "a bc".toList
    ∧ (scanLine ((' ' :: DQ :: "a b".toList ++ DQ :: " c ".toList)
          ++ '=' :: (' ' :: DQ :: "d e".toList ++ DQ :: " f".toList))).key
        = keptBy afterOddQuote
            ((' ' :: DQ :: "a b".toList ++ DQ :: " c ".toList)
              ++ '=' :: (' ' :: DQ :: "d e".toList ++ DQ :: " f".toList))
            0 (' ' :: DQ :: "a b".toList ++ DQ :: " c ".toList) :=
  ⟨by decide, by decide, by decide,
    (C6_spaces_kept_iff_quoted (' ' :: DQ :: "a b".toList ++ DQ :: " c ".toList)
      (' ' :: DQ :: "d e".toList ++ DQ :: " f".toList) (by decide) (by decide)).1⟩

/-! ## The accessors -/

theorem length_assign_of_absent (m : config_map) (key val : Str) (h : find m key = none) :
    (assign m key val).length = m.length + 1 := by
  induction m with
  | nil => simp [assign]
  | cons p m ih =>
    obtain ⟨k, v⟩ := p
    by_cases h1 : key = k
    · simp [find, h1] at h
    · simp only [find, h1, if_false] at h
      by_cases h2 : strLt key k = true
      · simp [assign, h1, h2]
      · simp [assign, h1, h2, ih h]

theorem getString_present (config : config_map) (key dflt v : Str)
    (h : find config key = some v) : getString config key dflt = (v, config) := by
  simp [getString, index, h]

theorem getString_absent (config : config_map) (key dflt : Str)
    (h : find config key = none) :
    getString config key dflt = (dflt, assign config key dflt) := by
  simp [getString, index, h, find_assign_self]

/-- C7: when the key is present `getString` returns the stored value and
leaves the store as it is; when the key is absent it returns the default and
the store becomes the old one with the one binding `key -> dflt` added: the
key is then bound to the default, one entry was added, and every other key has
the presence and value it had. -/
theorem C7_getString (config : config_map) (key dflt : Str) :
    (∀ v, find config key = some v → getString config key dflt = (v, config))
    ∧ (find config key = none →
        (getString config key dflt).1 = dflt
        ∧ (getString config key dflt).2 = assign config key dflt
        ∧ find (getString config key dflt).2 key = some dflt
        ∧ (getString config key dflt).2.length = config.length + 1
        ∧ ∀ other, other ≠ key →
            find (getString config key dflt).2 other = find config other) := by
  refine ⟨fun v h => getString_present config key dflt v h, fun h => ?_⟩
  rw [getString_absent config key dflt h]
  exact ⟨rfl, rfl, find_assign_self _ _ _, length_assign_of_absent _ _ _ h,
    fun other ho => find_assign_other _ _ _ _ ho⟩

/-- C7, witness: a hit on `theme` and a miss on `mode` in a store that binds
`theme` only. -/
theorem C7_getString_witness :
    find [("theme".toList, "default".toList)] "theme".toList = some "default".toList
    ∧ getString [("theme".toList, "default".toList)] "theme".toList "x".toList
        = ("default".toList, [("theme".toList, "default".toList)])
    ∧ find [("theme".toList, "default".toList)] "mode".toList = none
    ∧ (getString [("theme".toList, "default".toList)] "mode".toList "x".toList).1
        = "x".toList :=
  ⟨by decide,
    (C7_getString [("theme".toList, "default".toList)] "theme".toList "x".toList).1
      "default".toList (by decide),
    by decide,
    ((C7_getString [("theme".toList, "default".toList)] "mode".toList "x".toList).2
      (by decide)).1⟩

/-! ## Decimal rendering and `atoi` -/

theorem digitChar_isdigit (n : Nat) (h : n < 10) :
    isdigit (Nat.digitChar n) = true ∧ (Nat.digitChar n).toNat - 48 = n := by
  interval_cases n <;> decide

theorem isdigit_not_special (c : Char) (h : isdigit c = true) :
    isspace c = false ∧ c ≠ '-' ∧ c ≠ '+' := by
  have h1 : 48 ≤ c.toNat ∧ c.toNat ≤ 57 := by simpa [isdigit] using h
  refine ⟨?_, ?_, ?_⟩
  · have hs : c ≠ ' ' := by
      intro e
      rw [e] at h1
      revert h1
      decide
    have hr : ¬ (9 ≤ c.toNat ∧ c.toNat ≤ 13) := by omega
    simp [isspace, hs, hr]
  · intro e
    rw [e] at h1
    revert h1
    decide
  · intro e
    rw [e] at h1
    revert h1
    decide

theorem toDigitsCore_renders (fuel n : Nat) (ds : Str) (h : n < fuel) :
    ∃ L, Nat.toDigitsCore 10 fuel n ds = L ++ ds ∧ Renders L n := by
  induction fuel generalizing n ds with
  | zero => omega
  | succ fuel ih =>
    have hd := digitChar_isdigit (n % 10) (Nat.mod_lt _ (by decide))
    by_cases h0 : n / 10 = 0
    · refine ⟨[Nat.digitChar (n % 10)], by simp [Nat.toDigitsCore, h0], by simp, ?_, ?_⟩
      · intro c hc
        rw [List.mem_singleton] at hc
        rw [hc]
        exact hd.1
      · intro acc rest
        have hn : n = n % 10 := by omega
        simp only [digitsVal, hd.1, hd.2, if_true, List.singleton_append, List.length_singleton,
          pow_one]
        rw [← hn]
        rfl
    · have hlt : n / 10 < fuel := by omega
      obtain ⟨L, hL, hne, hdig, hval⟩ := ih (n / 10) (Nat.digitChar (n % 10) :: ds) hlt
      refine ⟨L ++ [Nat.digitChar (n % 10)], by simp [Nat.toDigitsCore, h0, hL], by simp, ?_, ?_⟩
      · intro c hc
        rcases List.mem_append.mp hc with hc | hc
        · exact hdig c hc
        · rw [List.mem_singleton] at hc
          rw [hc]
          exact hd.1
      · intro acc rest
        have e : L ++ [Nat.digitChar (n % 10)] ++ rest = L ++ (Nat.digitChar (n % 10) :: rest) := by
          simp
        rw [e, hval]
        simp only [digitsVal, hd.1, if_true, hd.2, List.length_append, List.length_singleton]
        congr 1
        rw [pow_succ, ← Nat.mul_assoc]
        generalize acc * 10 ^ L.length = x
        omega

theorem toDigits_renders (n : Nat) : Renders (Nat.toDigits 10 n) n := by
  obtain ⟨L, hL, hR⟩ := toDigitsCore_renders (n + 1) n [] (Nat.lt_succ_self n)
  unfold Nat.toDigits
  rw [hL, List.append_nil]
  exact hR

theorem digitsVal_renders (L : Str) (n : Nat) (h : Renders L n) : digitsVal 0 L = n := by
  have := h.2.2 0 []
  simpa [digitsVal] using this

theorem strtolVal_renders (L : Str) (n : Nat) (h : Renders L n) : strtolVal L = n := by
  obtain ⟨hne, hdig, _⟩ := h
  cases L with
  | nil => exact absurd rfl hne
  | cons c cs =>
    have hc := isdigit_not_special c (hdig c (List.mem_cons_self c cs))
    have hdrop : List.dropWhile isspace (c :: cs) = c :: cs := by
      simp [List.dropWhile, hc.1]
    unfold strtolVal
    rw [hdrop]
    simp only [hc.2.1, hc.2.2, if_false]
    rw [digitsVal_renders (c :: cs) n ⟨hne, hdig, by assumption⟩]

theorem strtolVal_neg_renders (L : Str) (n : Nat) (h : Renders L n) :
    strtolVal ('-' :: L) = - (n : Int) := by
  have hdrop : List.dropWhile isspace ('-' :: L) = '-' :: L := by
    simp [List.dropWhile, isspace]
  unfold strtolVal
  rw [hdrop]
  simp only [if_true]
  rw [digitsVal_renders L n h]

/-- Within the range of `int` the decimal rendering parses back to the
number. -/
theorem atoi_to_string (d : Int) (hlo : -(2 : Int) ^ 31 ≤ d) (hhi : d < (2 : Int) ^ 31) :
    atoi (to_string d) = d := by
  have hval : strtolVal (to_string d) = d := by
    unfold to_string
    by_cases hneg : d < 0
    · rw [if_pos hneg, strtolVal_neg_renders _ _ (toDigits_renders d.natAbs)]
      omega
    · rw [if_neg hneg, strtolVal_renders _ _ (toDigits_renders d.toNat)]
      omega
  unfold atoi
  rw [hval]
  have hc : clampLong d = d := by
    unfold clampLong
    rw [if_neg (by omega), if_neg (by omega)]
  rw [hc]
  unfold toInt32
  omega

theorem strtolVal_of_not_numeric (v : Str) (h : beginsNumeric v = false) :
    strtolVal v = 0 := by
  unfold beginsNumeric at h
  unfold strtolVal
  cases hdrop : List.dropWhile isspace v with
  | nil => rfl
  | cons c cs =>
    rw [hdrop] at h
    simp only at h ⊢
    by_cases hm : c = '-'
    · subst hm
      simp only [true_or, if_true] at h ⊢
      cases cs with
      | nil => simp [digitsVal]
      | cons c2 cs2 =>
        simp only at h
        simp [digitsVal, h]
    · by_cases hp : c = '+'
      · subst hp
        simp only [or_true, if_true] at h
        cases cs with
        | nil => simp [digitsVal]
        | cons c2 cs2 =>
          simp only at h
          simp [digitsVal, h]
      · simp only [hm, hp, or_self, if_false] at h ⊢
        simp [digitsVal, h]

theorem atoi_of_not_numeric (v : Str) (h : beginsNumeric v = false) : atoi v = 0 := by
  unfold atoi
  rw [strtolVal_of_not_numeric v h]
  decide

/-! ## `getInt` and `getBool` -/

/-- C8: on a store where the key is absent, `getInt` with a default `d` in
the range of a 32-bit `int` returns `d`; afterwards `keyExists` is true for
the key and the stored string is the decimal form of `d`, which parses back
to `d`. On the empty store `getInt("missing.key", 7)` returns 7 and stores
the string `7`. -/
theorem C8_getInt_absent (config : config_map) (key : Str) (d : Int)
    (habs : find config key = none)
    (hlo : -(2 : Int) ^ 31 ≤ d) (hhi : d < (2 : Int) ^ 31) :
    (getInt config key d).1 = d
    ∧ keyExists (getInt config key d).2 key = true
    ∧ find (getInt config key d).2 key = some (to_string d)
    ∧ (getInt config key d).2 = assign config key (to_string d)
    ∧ atoi (to_string d) = d
    ∧ getInt [] "missing.key".toList 7
        = (7, [("missing.key".toList, "7".toList)]) := by
  have hg : getInt config key d = (d, assign config key (to_string d)) := by
    simp [getInt, getString_absent config key _ habs, atoi_to_string d hlo hhi]
  rw [hg]
  refine ⟨rfl, ?_, find_assign_self _ _ _, rfl, atoi_to_string d hlo hhi, by decide⟩
  simp [keyExists, find_assign_self]

/-- C8, witness: the default `-15` on the empty store. -/
theorem C8_getInt_absent_witness :
    find [] "theme.default.border".toList = none
    ∧ -(2 : Int) ^ 31 ≤ -15 ∧ (-15 : Int) < (2 : Int) ^ 31
    ∧ (getInt [] "theme.default.border".toList (-15)).1 = -15
    ∧ find (getInt [] "theme.default.border".toList (-15)).2 "theme.default.border".toList
        = some (to_string (-15)) :=
  ⟨by decide, by decide, by decide,
    (C8_getInt_absent [] "theme.default.border".toList (-15)
      (by decide) (by decide) (by decide)).1,
    (C8_getInt_absent [] "theme.default.border".toList (-15)
      (by decide) (by decide) (by decide)).2.2.1⟩

/-- C9: `getBool` returns true exactly when the value found under the key
after the default was materialized is one of the strings `1`, `yes`, `true`;
for a present key the store is unchanged and the default plays no part, so
the stored values `TRUE`, `Yes`, `on` and the empty string give false; for an
absent key `getBool` returns the default and stores `true` or `false`
accordingly. -/
theorem C9_getBool (config : config_map) (key : Str) (dflt : Bool) :
    ((getBool config key dflt).1 = true ↔
        (find (getBool config key dflt).2 key = some "1".toList
          ∨ find (getBool config key dflt).2 key = some "yes".toList
          ∨ find (getBool config key dflt).2 key = some "true".toList))
    ∧ (∀ v, find config key = some v →
        getBool config key dflt
          = (decide (v = "1".toList ∨ v = "yes".toList ∨ v = "true".toList), config))
    ∧ (find config key = none →
        (getBool config key dflt).1 = dflt
        ∧ (getBool config key dflt).2
            = assign config key (if dflt then "true".toList else "false".toList)
        ∧ find (getBool config key dflt).2 key
            = some (if dflt then "true".toList else "false".toList))
    ∧ (∀ v ∈ ["TRUE".toList, "Yes".toList, "on".toList, []],
        getBool [(key, v)] key dflt = (false, [(key, v)])) := by
  have hpres : ∀ v, find config key = some v →
      getBool config key dflt
        = (decide (v = "1".toList ∨ v = "yes".toList ∨ v = "true".toList), config) := by
    intro v hv
    simp [getBool, getString_present config key _ v hv]
  have habs : find config key = none →
      getBool config key dflt
        = (dflt, assign config key (if dflt then "true".toList else "false".toList)) := by
    intro hn
    cases dflt
    · simp only [getBool, getString_absent config key _ hn, Bool.false_eq_true, if_false]
      congr 1
    · simp only [getBool, getString_absent config key _ hn, if_true]
      congr 1
  refine ⟨?_, hpres, ?_, ?_⟩
  · cases hf : find config key with
    | none =>
      rw [habs hf]
      simp only [find_assign_self]
      cases dflt
      · simp only [Bool.false_eq_true, if_false, false_iff]
        decide
      · simp only [if_true, true_iff]
        decide
    | some v =>
      rw [hpres v hf]
      simp [hf]
  · intro hn
    rw [habs hn]
    exact ⟨rfl, rfl, find_assign_self _ _ _⟩
  · intro v hv
    have hfind : find [(key, v)] key = some v := by simp [find]
    have hgs := getString_present [(key, v)] key
      (if dflt then "true".toList else "false".toList) v hfind
    simp only [getBool, hgs]
    simp only [List.mem_cons, List.mem_singleton, List.not_mem_nil, or_false] at hv
    rcases hv with hv | hv | hv | hv <;> subst hv <;>
      simp only [Prod.mk.injEq, and_true] <;> decide

/-- C9, witness: the stored value `yes` gives true whatever the default, and
a miss with the default true stores `true`. -/
theorem C9_getBool_witness :
    find [("k".toList, "yes".toList)] "k".toList = some "yes".toList
    ∧ getBool [("k".toList, "yes".toList)] "k".toList false
        = (true, [("k".toList, "yes".toList)])
    ∧ find [] "k".toList = none
    ∧ (getBool [] "k".toList true).1 = true
    ∧ getBool [("k".toList, "TRUE".toList)] "k".toList true
        = (false, [("k".toList, "TRUE".toList)]) :=
  ⟨by decide,
    (C9_getBool [("k".toList, "yes".toList)] "k".toList false).2.1 "yes".toList (by decide),
    by decide,
    ((C9_getBool [] "k".toList true).2.2.1 (by decide)).1,
    (C9_getBool [] "k".toList true).2.2.2 "TRUE".toList (by decide)⟩

/-- C10: `getInt` is total and lenient. For a key that is present the store
is unchanged and the result is `atoi` of the stored value whatever the
default, so the default plays a part only when the key is absent; when the
stored value does not begin, after optional white space and an optional sign,
with a decimal digit, the result is 0. -/
theorem C10_getInt_lenient (config : config_map) (key v : Str) (d : Int)
    (hfind : find config key = some v) :
    getInt config key d = (atoi v, config)
    ∧ (∀ d2 : Int, getInt config key d2 = getInt config key d)
    ∧ (beginsNumeric v = false → getInt config key d = (0, config)) := by
  have hg : ∀ x : Int, getInt config key x = (atoi v, config) := by
    intro x
    simp [getInt, getString_present config key _ v hfind]
  refine ⟨hg d, fun d2 => by rw [hg d2, hg d], fun hn => ?_⟩
  rw [hg d, atoi_of_not_numeric v hn]

/-- C10, witness: the stored value `  -abc` is not numeric, so `getInt`
returns 0 and not the default 7. -/
theorem C10_getInt_lenient_witness :
    find [("k".toList, "  -abc".toList)] "k".toList = some "  -abc".toList
    ∧ beginsNumeric "  -abc".toList = false
    ∧ getInt [("k".toList, "  -abc".toList)] "k".toList 7
        = (0, [("k".toList, "  -abc".toList)]) :=
  ⟨by decide, by decide,
    (C10_getInt_lenient [("k".toList, "  -abc".toList)] "k".toList "  -abc".toList 7
      (by decide)).2.2 (by decide)⟩

theorem getBool_absent_fst (config : config_map) (key : Str) (dflt : Bool)
    (h : find config key = none) : (getBool config key dflt).1 = dflt := by
  cases dflt
  · simp only [getBool, getString_absent config key _ h, Bool.false_eq_true, if_false]
    decide
  · simp only [getBool, getString_absent config key _ h, if_true]
    decide

/-! ## Existence checks, structural characters, sticky defaults -/

/-- C17: `keyExists` is true exactly when the key is present; `keyEmpty` is
true exactly when the key is absent or bound to the empty string, and it
returns the store as it was, also for an absent key. `keyExists` only reads
the store. -/
theorem C17_keyExists_keyEmpty (config : config_map) (key : Str) :
    (keyExists config key = true ↔ ∃ v, find config key = some v)
    ∧ (keyExists config key = false ↔ find config key = none)
    ∧ ((keyEmpty config key).1 = true ↔
        (find config key = none ∨ find config key = some []))
    ∧ (keyEmpty config key).2 = config := by
  cases h : find config key with
  | none => simp [keyExists, keyEmpty, h]
  | some v => simp [keyExists, keyEmpty, index, h]

theorem unmarked_append (w : Str) (c : Char) (hw : Unmarked w)
    (hc : c ≠ '=' ∧ c ≠ '#' ∧ c ≠ DQ ∧ c ≠ CR ∧ c ≠ LF ∧ c ≠ NUL) :
    Unmarked (w ++ [c]) := by
  intro x hx
  rcases List.mem_append.mp hx with hx | hx
  · exact hw x hx
  · rw [List.mem_singleton] at hx
    rw [hx]
    exact hc

/-- The scan never appends a structural character or a terminator. -/
theorem scan_unmarked (w : Str) (st : LineState)
    (hk : Unmarked st.key) (hv : Unmarked st.val) :
    Unmarked (scan w st).key ∧ Unmarked (scan w st).val := by
  induction w generalizing st with
  | nil => exact ⟨hk, hv⟩
  | cons c cs ih =>
    by_cases ht : c = NUL ∨ c = LF ∨ c = CR
    · simp only [scan, ht, if_true]
      exact ⟨hk, hv⟩
    · by_cases he : c = '='
      · subst he
        rw [scan_cons_eq]
        exact ih _ hk hv
      · by_cases hh : c = '#'
        · simp only [scan, ht, he, hh, if_true, if_false]
          exact ⟨hk, hv⟩
        · by_cases hd : c = DQ
          · subst hd
            rw [scan_cons_DQ]
            exact ih _ hk hv
          · rw [scan_cons_other c cs st ht he hh hd]
            have hc : c ≠ '=' ∧ c ≠ '#' ∧ c ≠ DQ ∧ c ≠ CR ∧ c ≠ LF ∧ c ≠ NUL :=
              ⟨he, hh, hd, fun e => ht (Or.inr (Or.inr e)), fun e => ht (Or.inr (Or.inl e)),
                fun e => ht (Or.inl e)⟩
            split
            · apply ih
              · unfold LineState.append
                split
                · exact hk
                · exact unmarked_append _ _ hk hc
              · unfold LineState.append
                split
                · exact unmarked_append _ _ hv hc
                · exact hv
            · exact ih _ hk hv

theorem mem_assign (m : config_map) (key val : Str) (p : Str × Str)
    (h : p ∈ assign m key val) : p = (key, val) ∨ p ∈ m := by
  induction m with
  | nil => simpa [assign] using h
  | cons q m ih =>
    obtain ⟨k, v⟩ := q
    by_cases h1 : key = k
    · simp only [assign, h1, if_true, List.mem_cons] at h
      rw [h1]
      rcases h with h | h
      · exact Or.inl h
      · exact Or.inr (List.mem_cons_of_mem _ h)
    · by_cases h2 : strLt key k = true
      · simp only [assign, h1, h2, if_true, if_false, List.mem_cons] at h
        rcases h with h | h | h
        · exact Or.inl h
        · exact Or.inr (List.mem_cons.mpr (Or.inl h))
        · exact Or.inr (List.mem_cons_of_mem _ h)
      · simp only [assign, h1, h2, if_false, List.mem_cons] at h
        rcases List.mem_cons.mp h with h3 | h3
        · exact Or.inr (List.mem_cons.mpr (Or.inl h3))
        · rcases ih h3 with h2 | h2
          · exact Or.inl h2
          · exact Or.inr (List.mem_cons_of_mem _ h2)

theorem mem_loadLine (config : config_map) (line : Str) (p : Str × Str)
    (h : p ∈ loadLine config line) :
    p ∈ config ∨ (Unmarked p.1 ∧ Unmarked p.2) := by
  have hu := scan_unmarked line LineState.init
    (fun c hc => absurd hc (List.not_mem_nil c)) (fun c hc => absurd hc (List.not_mem_nil c))
  unfold loadLine at h
  simp only at h
  split at h
  · rcases mem_assign _ _ _ _ h with h | h
    · right
      rw [h]
      exact hu
    · exact Or.inl h
  · exact Or.inl h

theorem mem_readLoop (fuel : Nat) (content : Str) (config : config_map) (p : Str × Str)
    (h : p ∈ readLoop fuel content config) :
    p ∈ config ∨ (Unmarked p.1 ∧ Unmarked p.2) := by
  induction fuel generalizing content config with
  | zero => exact Or.inl h
  | succ fuel ih =>
    unfold readLoop at h
    split at h
    · exact Or.inl h
    · rcases ih _ _ h with h | h
      · exact mem_loadLine _ _ _ h
      · exact Or.inr h

/-- C18: whatever the line and its quoting, the key and the value the scan
produces hold no `=`, no `#`, no double quote, no carriage return and no line
feed (and no `\0`); so every entry of the store after `readConfig` was in the
store before or has a key and a value free of these characters. -/
theorem C18_no_structural_chars (line content : Str) (config : config_map) :
    Unmarked (scanLine line).key ∧ Unmarked (scanLine line).val
    ∧ (∀ k v, tokenize line = some (k, v) → Unmarked k ∧ Unmarked v)
    ∧ (∀ p ∈ (readConfig (some content) config).2,
        p ∈ config ∨ (Unmarked p.1 ∧ Unmarked p.2))
    ∧ (∀ p ∈ (readConfig (some content) []).2, Unmarked p.1 ∧ Unmarked p.2) := by
  have hu := scan_unmarked line LineState.init
    (fun c hc => absurd hc (List.not_mem_nil c)) (fun c hc => absurd hc (List.not_mem_nil c))
  refine ⟨hu.1, hu.2, ?_, ?_, ?_⟩
  · intro k v hkv
    unfold tokenize at hkv
    simp only at hkv
    split at hkv
    · simp only [Option.some.injEq, Prod.mk.injEq] at hkv
      rw [← hkv.1, ← hkv.2]
      exact hu
    · exact absurd hkv (by simp)
  · intro p hp
    exact mem_readLoop _ _ _ _ hp
  · intro p hp
    rcases mem_readLoop _ _ _ _ hp with h | h
    · exact absurd h (List.not_mem_nil p)
    · exact h

/-- C18, witness: the line `"a=b" # "c"` yields `a` and `b`. -/
theorem C18_no_structural_chars_witness :
    tokenize (DQ :: "a=b".toList ++ DQ :: " # ".toList) = some ("a".toList, "b".toList)
    ∧ Unmarked "a".toList ∧ Unmarked "b".toList :=
  ⟨by decide,
    (C18_no_structural_chars (DQ :: "a=b".toList ++ DQ :: " # ".toList) [] []).2.2.1
      "a".toList "b".toList (by decide)⟩

/-- C19: the first default is sticky. A second `getString` with another
default returns what the first returned and leaves the store as the first
left it. On an absent key, `getInt` with the `int` default `a` followed by
`getInt` with `b` returns `a` both times, and `getBool` with `x` followed by
`getBool` with `y` returns `x` both times; the second call leaves the store
unchanged. -/
theorem C19_first_default_sticky (config : config_map) (key d1 d2 : Str)
    (a b : Int) (x y : Bool) :
    (getString (getString config key d1).2 key d2).1 = (getString config key d1).1
    ∧ (getString (getString config key d1).2 key d2).2 = (getString config key d1).2
    ∧ (find config key = none → -(2 : Int) ^ 31 ≤ a → a < (2 : Int) ^ 31 →
        (getInt config key a).1 = a
        ∧ (getInt (getInt config key a).2 key b).1 = a
        ∧ (getInt (getInt config key a).2 key b).2 = (getInt config key a).2)
    ∧ (find config key = none →
        (getBool config key x).1 = x
        ∧ (getBool (getBool config key x).2 key y).1 = x
        ∧ (getBool (getBool config key x).2 key y).2 = (getBool config key x).2) := by
  have hsticky : ∀ d, find (getString config key d).2 key = some (getString config key d).1 := by
    intro d
    cases h : find config key with
    | none => rw [getString_absent config key d h]; exact find_assign_self _ _ _
    | some v => rw [getString_present config key d v h]; exact h
  have h2 : ∀ d e, getString (getString config key d).2 key e
      = ((getString config key d).1, (getString config key d).2) :=
    fun d e => getString_present _ key e _ (hsticky d)
  refine ⟨by rw [h2], by rw [h2], ?_, ?_⟩
  · intro habs hlo hhi
    have h1 : (getInt config key a).1 = a := by
      simp [getInt, getString_absent config key _ habs, atoi_to_string a hlo hhi]
    refine ⟨h1, ?_, ?_⟩
    · have : (getInt (getInt config key a).2 key b).1 = (getInt config key a).1 := by
        simp only [getInt, h2]
      rw [this, h1]
    · simp only [getInt, h2]
  · intro habs
    have h1 : (getBool config key x).1 = x := ((getBool_absent_fst config key x) habs)
    refine ⟨h1, ?_, ?_⟩
    · have : (getBool (getBool config key x).2 key y).1 = (getBool config key x).1 := by
        simp only [getBool, h2]
      rw [this, h1]
    · simp only [getBool, h2]

/-- C19, witness: on the empty store the defaults 5 then 9 give 5 twice, and
the defaults true then false give true twice. -/
theorem C19_first_default_sticky_witness :
    find [] "k".toList = none ∧ -(2 : Int) ^ 31 ≤ 5 ∧ (5 : Int) < (2 : Int) ^ 31
    ∧ (getInt (getInt [] "k".toList 5).2 "k".toList 9).1 = 5
    ∧ (getBool (getBool [] "k".toList true).2 "k".toList false).1 = true :=
  ⟨by decide, by decide, by decide,
    ((C19_first_default_sticky [] "k".toList [] [] 5 9 true false).2.2.1
      (by decide) (by decide) (by decide)).2.1,
    ((C19_first_default_sticky [] "k".toList [] [] 5 9 true false).2.2.2 (by decide)).2.1⟩

/-! ## The order of the store -/

theorem strLt_irrefl (a : Str) : strLt a a = false := by
  induction a with
  | nil => rfl
  | cons c cs ih => simp [strLt, ih]

theorem strLt_asymm (a b : Str) (h : strLt a b = true) : strLt b a = false := by
  induction a generalizing b with
  | nil =>
    cases b with
    | nil => simp [strLt] at h
    | cons d ds => rfl
  | cons c cs ih =>
    cases b with
    | nil => simp [strLt] at h
    | cons d ds =>
      simp only [strLt] at h ⊢
      by_cases h1 : c.toNat < d.toNat
      · have h2 : ¬ d.toNat < c.toNat := by omega
        simp [h1, h2]
      · by_cases h2 : d.toNat < c.toNat
        · simp [h1, h2] at h
        · simp only [h1, h2, if_false] at h ⊢
          exact ih ds h

theorem strLt_trans (a b c : Str) (h1 : strLt a b = true) (h2 : strLt b c = true) :
    strLt a c = true := by
  induction a generalizing b c with
  | nil =>
    cases b with
    | nil => simp [strLt] at h1
    | cons y ys =>
      cases c with
      | nil => simp [strLt] at h2
      | cons z zs => rfl
  | cons x xs ih =>
    cases b with
    | nil => simp [strLt] at h1
    | cons y ys =>
      cases c with
      | nil => simp [strLt] at h2
      | cons z zs =>
        simp only [strLt] at h1 h2 ⊢
        by_cases hxy : x.toNat < y.toNat
        · by_cases hyz : y.toNat < z.toNat
          · have : x.toNat < z.toNat := by omega
            simp [this]
          · by_cases hzy : z.toNat < y.toNat
            · simp [hyz, hzy] at h2
            · have : x.toNat < z.toNat := by omega
              simp [this]
        · by_cases hyx : y.toNat < x.toNat
          · simp [hxy, hyx] at h1
          · simp only [hxy, hyx, if_false] at h1
            by_cases hyz : y.toNat < z.toNat
            · have : x.toNat < z.toNat := by omega
              simp [this]
            · by_cases hzy : z.toNat < y.toNat
              · simp [hyz, hzy] at h2
              · simp only [hyz, hzy, if_false] at h2
                have e1 : ¬ x.toNat < z.toNat := by omega
                have e2 : ¬ z.toNat < x.toNat := by omega
                simp only [e1, e2, if_false]
                exact ih ys zs h1 h2

theorem char_eq_of_toNat (x y : Char) (h : x.toNat = y.toNat) : x = y := by
  rw [← Char.ofNat_toNat x, ← Char.ofNat_toNat y, h]

theorem strLt_total (a b : Str) (hne : a ≠ b) (h : strLt a b = false) : strLt b a = true := by
  induction a generalizing b with
  | nil =>
    cases b with
    | nil => exact absurd rfl hne
    | cons d ds => simp [strLt] at h
  | cons c cs ih =>
    cases b with
    | nil => rfl
    | cons d ds =>
      simp only [strLt] at h ⊢
      by_cases h1 : c.toNat < d.toNat
      · simp [h1] at h
      · by_cases h2 : d.toNat < c.toNat
        · simp [h2]
        · simp only [h1, h2, if_false] at h ⊢
          have hcd : c = d := char_eq_of_toNat c d (by omega)
          apply ih ds _ h
          intro e
          exact hne (by rw [hcd, e])

theorem find_none_of_lt (m : config_map) (key : Str)
    (h : ∀ p ∈ m, strLt key p.1 = true) : find m key = none := by
  induction m with
  | nil => rfl
  | cons p m ih =>
    obtain ⟨k, v⟩ := p
    have hk : strLt key k = true := h (k, v) (List.mem_cons_self _ _)
    have hne : key ≠ k := by
      intro e
      rw [e, strLt_irrefl] at hk
      exact absurd hk (by simp)
    simp only [find, hne, if_false]
    exact ih (fun p hp => h p (List.mem_cons_of_mem _ hp))

theorem mem_of_find (m : config_map) (key v : Str) (h : find m key = some v) :
    (key, v) ∈ m := by
  induction m with
  | nil => simp [find] at h
  | cons p m ih =>
    obtain ⟨k, w⟩ := p
    by_cases hk : key = k
    · simp only [find, hk, if_true, Option.some.injEq] at h
      rw [hk, h]
      exact List.mem_cons_self _ _
    · simp only [find, hk, if_false] at h
      exact List.mem_cons_of_mem _ (ih h)

theorem ordered_assign (m : config_map) (key val : Str) (h : Ordered m) :
    Ordered (assign m key val) := by
  induction m with
  | nil => simp [assign, Ordered]
  | cons p m ih =>
    obtain ⟨k, v⟩ := p
    unfold Ordered at h ih ⊢
    rw [List.pairwise_cons] at h
    by_cases h1 : key = k
    · simp only [assign, h1, if_true]
      rw [List.pairwise_cons]
      exact h
    · by_cases h2 : strLt key k = true
      · simp only [assign, h1, h2, if_true, if_false]
        rw [List.pairwise_cons, List.pairwise_cons]
        refine ⟨?_, h⟩
        intro q hq
        rcases List.mem_cons.mp hq with hq | hq
        · rw [hq]
          exact h2
        · exact strLt_trans _ _ _ h2 (h.1 q hq)
      · have h2f : strLt key k = false := by simpa using h2
        simp only [assign, h1, h2f, if_false, Bool.false_eq_true]
        rw [List.pairwise_cons]
        refine ⟨?_, ih h.2⟩
        intro q hq
        rcases mem_assign _ _ _ _ hq with hq | hq
        · rw [hq]
          exact strLt_total key k h1 h2f
        · exact h.1 q hq

/-- Two ordered stores with the same bindings are the same store. -/
theorem ordered_ext (a b : config_map) (ha : Ordered a) (hb : Ordered b)
    (h : ∀ k, find a k = find b k) : a = b := by
  induction a generalizing b with
  | nil =>
    cases b with
    | nil => rfl
    | cons q b =>
      have := h q.1
      simp [find] at this
  | cons p a ih =>
    cases b with
    | nil =>
      have := h p.1
      simp [find] at this
    | cons q b =>
      obtain ⟨k1, v1⟩ := p
      obtain ⟨k2, v2⟩ := q
      unfold Ordered at ha hb
      rw [List.pairwise_cons] at ha hb
      have hk : k1 = k2 := by
        by_contra hne
        have e1 := h k1
        simp only [find, if_true, hne, if_false] at e1
        have m1 := mem_of_find b k1 v1 e1.symm
        have e2 := h k2
        have hne2 : k2 ≠ k1 := fun e => hne e.symm
        simp only [find, if_true, hne2, if_false] at e2
        have m2 := mem_of_find a k2 v2 e2
        have l1 := hb.1 _ m1
        have l2 := ha.1 _ m2
        simp only at l1 l2
        rw [strLt_asymm _ _ l1] at l2
        exact absurd l2 (by simp)
      subst hk
      have hv : v1 = v2 := by
        have e1 := h k1
        simpa [find] using e1
      subst hv
      congr 1
      apply ih b ha.2 hb.2
      intro k
      by_cases hk : k = k1
      · subst hk
        rw [find_none_of_lt a k (fun p hp => ha.1 p hp),
          find_none_of_lt b k (fun p hp => hb.1 p hp)]
      · have := h k
        simpa [find, hk] using this

/-! ## Loading a sequence of lines -/

theorem find_loadLine (config : config_map) (line k : Str) :
    find (loadLine config line) k
      = match tokenize line with
        | some (k2, v) => if k2 = k then some v else find config k
        | none => find config k := by
  rw [loadLine_eq]
  cases ht : tokenize line with
  | none => rfl
  | some p =>
    obtain ⟨k2, v⟩ := p
    simp only
    by_cases hk : k2 = k
    · subst hk
      simp [find_assign_self]
    · simp only [hk, if_false]
      exact find_assign_other _ _ _ _ (fun e => hk e.symm)

theorem lastYield_cons (l : Str) (ls : List Str) (k : Str) :
    lastYield (l :: ls) k
      = match lastYield ls k with
        | some v => some v
        | none =>
          match tokenize l with
          | some (k2, v) => if k2 = k then some v else none
          | none => none := rfl

theorem find_loadLines (lines : List Str) (config : config_map) (k : Str) :
    find (loadLines config lines) k
      = match lastYield lines k with
        | some v => some v
        | none => find config k := by
  induction lines generalizing config with
  | nil => rfl
  | cons l ls ih =>
    have e : loadLines config (l :: ls) = loadLines (loadLine config l) ls := rfl
    rw [e, ih, find_loadLine, lastYield_cons]
    cases lastYield ls k with
    | some v => rfl
    | none =>
      cases tokenize l with
      | none => rfl
      | some p =>
        obtain ⟨k2, v⟩ := p
        simp only
        split <;> rfl

theorem ordered_loadLines (lines : List Str) (config : config_map) (h : Ordered config) :
    Ordered (loadLines config lines) := by
  induction lines generalizing config with
  | nil => exact h
  | cons l ls ih =>
    apply ih
    unfold loadLine
    simp only
    split
    · exact ordered_assign _ _ _ h
    · exact h

theorem readLoop_eq_loadLines (fuel : Nat) (content : Str) (config : config_map) :
    readLoop fuel content config = loadLines config (chunksFuel fuel content) := by
  induction fuel generalizing content config with
  | zero => rfl
  | succ fuel ih =>
    unfold readLoop chunksFuel
    split
    · rfl
    · rw [ih]
      rfl

/-- The function `readConfig` loads the texts `fgets` delivers, one after
the other. -/
theorem readConfig_eq_loadLines (content : Str) (config : config_map) :
    readConfig (some content) config = (1, loadLines config (fileChunks content)) := by
  simp [readConfig, fileChunks, readLoop_eq_loadLines]

theorem lastYield_isSome (lines : List Str) (k : Str) :
    (lastYield lines k).isSome = true ↔ ∃ l ∈ lines, ∃ v, tokenize l = some (k, v) := by
  induction lines with
  | nil => simp [lastYield]
  | cons l ls ih =>
    rw [lastYield_cons]
    cases hl : lastYield ls k with
    | some v =>
      rw [hl] at ih
      obtain ⟨l2, hl2, v2, hv2⟩ := ih.mp rfl
      simp only [Option.isSome_some, true_iff]
      exact ⟨l2, List.mem_cons_of_mem _ hl2, v2, hv2⟩
    | none =>
      rw [hl] at ih
      have hno : ¬ ∃ l ∈ ls, ∃ v, tokenize l = some (k, v) := fun e => by
        have := ih.mpr e
        simp at this
      cases ht : tokenize l with
      | none =>
        simp only [Option.isSome_none, Bool.false_eq_true, false_iff]
        rintro ⟨l2, hl2, v2, hv2⟩
        rcases List.mem_cons.mp hl2 with e | e
        · rw [e, ht] at hv2
          exact absurd hv2 (by simp)
        · exact hno ⟨l2, e, v2, hv2⟩
      | some p =>
        obtain ⟨k2, v⟩ := p
        simp only
        by_cases hk : k2 = k
        · subst hk
          simp only [if_true, Option.isSome_some, true_iff]
          exact ⟨l, List.mem_cons_self _ _, v, ht⟩
        · simp only [hk, if_false, Option.isSome_none, Bool.false_eq_true, false_iff]
          rintro ⟨l2, hl2, v2, hv2⟩
          rcases List.mem_cons.mp hl2 with e | e
          · rw [e, ht] at hv2
            simp only [Option.some.injEq, Prod.mk.injEq] at hv2
            exact hk hv2.1
          · exact hno ⟨l2, e, v2, hv2⟩

theorem lastYield_none (lines : List Str) (k : Str)
    (h : ∀ l ∈ lines, ∀ v, tokenize l ≠ some (k, v)) : lastYield lines k = none := by
  cases hl : lastYield lines k with
  | none => rfl
  | some v =>
    have := (lastYield_isSome lines k).mp (by rw [hl]; rfl)
    obtain ⟨l, hmem, v2, hv2⟩ := this
    exact absurd hv2 (h l hmem v2)

theorem lastYield_split (L1 L2 : List Str) (l k v : Str)
    (hl : tokenize l = some (k, v)) (h2 : ∀ x ∈ L2, ∀ w, tokenize x ≠ some (k, w)) :
    lastYield (L1 ++ l :: L2) k = some v := by
  induction L1 with
  | nil =>
    rw [List.nil_append, lastYield_cons, lastYield_none L2 k h2, hl]
    simp
  | cons x xs ih =>
    rw [List.cons_append, lastYield_cons, ih]

/-- C11: later lines override earlier ones. After loading the lines `L`
into the store `s`, a key `k` is bound to the value yielded by the last line
of `L` whose tokenized key is `k`, when there is such a line, and has the
presence and value it had in `s` otherwise; loading into the empty store
binds exactly the keys that some line of `L` yields. The function
`readConfig` loads in this way the texts `fgets` delivers. -/
theorem C11_last_line_wins (s : config_map) (L : List Str) (k : Str) (content : Str) :
    (∀ (L1 L2 : List Str) (l v : Str), L = L1 ++ l :: L2 → tokenize l = some (k, v) →
        (∀ x ∈ L2, ∀ w, tokenize x ≠ some (k, w)) → find (loadLines s L) k = some v)
    ∧ ((∀ x ∈ L, ∀ w, tokenize x ≠ some (k, w)) → find (loadLines s L) k = find s k)
    ∧ find (loadLines s L) k
        = (match lastYield L k with
          | some v => some v
          | none => find s k)
    ∧ ((find (loadLines [] L) k).isSome = true ↔ ∃ l ∈ L, ∃ v, tokenize l = some (k, v))
    ∧ readConfig (some content) s = (1, loadLines s (fileChunks content)) := by
  refine ⟨?_, ?_, find_loadLines L s k, ?_, readConfig_eq_loadLines content s⟩
  · intro L1 L2 l v hL hl h2
    rw [find_loadLines, hL, lastYield_split L1 L2 l k v hl h2]
  · intro h
    rw [find_loadLines, lastYield_none L k h]
  · rw [find_loadLines, ← lastYield_isSome]
    cases lastYield L k with
    | none => simp [find]
    | some v => simp

/-- C11, witness: of the lines `a=1`, `b=2`, `a=3` the last one decides the
value of `a`. -/
theorem C11_last_line_wins_witness :
    ["a=1".toList, "b=2".toList, "a=3".toList] = ["a=1".toList, "b=2".toList] ++ "a=3".toList :: []
    ∧ tokenize "a=3".toList = some ("a".toList, "3".toList)
    ∧ find (loadLines [("a".toList, "0".toList)] ["a=1".toList, "b=2".toList, "a=3".toList])
        "a".toList = some "3".toList :=
  ⟨by decide, by decide,
    (C11_last_line_wins [("a".toList, "0".toList)] ["a=1".toList, "b=2".toList, "a=3".toList]
      "a".toList []).1 ["a=1".toList, "b=2".toList] [] "a=3".toList "3".toList
      (by decide) (by decide) (by simp)⟩

/-- C12: loading is idempotent. Loading the lines `L` a second time into
the store the first load produced gives that same store again, from the
empty store and from every store whose keys are in order (every store the
program builds); so a second `readConfig` of the same file content returns
the store of the first. -/
theorem C12_load_idempotent (s : config_map) (L : List Str) (content : Str)
    (hs : Ordered s) :
    loadLines (loadLines s L) L = loadLines s L
    ∧ loadLines (loadLines [] L) L = loadLines [] L
    ∧ readConfig (some content) (readConfig (some content) s).2
        = readConfig (some content) s
    ∧ Ordered (loadLines s L) := by
  have hgen : ∀ (m : config_map) (ls : List Str), Ordered m →
      loadLines (loadLines m ls) ls = loadLines m ls := by
    intro m ls hm
    have h1 := ordered_loadLines ls m hm
    apply ordered_ext _ _ (ordered_loadLines ls _ h1) h1
    intro k
    rw [find_loadLines ls (loadLines m ls), find_loadLines ls m]
    cases lastYield ls k <;> rfl
  refine ⟨hgen s L hs, hgen [] L List.Pairwise.nil, ?_, ordered_loadLines L s hs⟩
  rw [readConfig_eq_loadLines content s]
  simp only
  rw [readConfig_eq_loadLines, hgen s _ hs]

/-- C12, witness: the lines `b=1`, `a=2`, `b=3` loaded twice into the empty
store. -/
theorem C12_load_idempotent_witness :
    Ordered []
    ∧ loadLines [] ["b=1".toList, "a=2".toList, "b=3".toList]
        = [("a".toList, "2".toList), ("b".toList, "3".toList)]
    ∧ loadLines (loadLines [] ["b=1".toList, "a=2".toList, "b=3".toList])
          ["b=1".toList, "a=2".toList, "b=3".toList]
        = loadLines [] ["b=1".toList, "a=2".toList, "b=3".toList] :=
  ⟨List.Pairwise.nil, by decide,
    (C12_load_idempotent [] ["b=1".toList, "a=2".toList, "b=3".toList] []
      List.Pairwise.nil).1⟩

/-! ## The pieces `fgets` delivers -/

theorem fgets_rest_lt (k : Nat) (c : Str) (hk : 0 < k) (hc : c ≠ []) :
    (fgets k c).2.length < c.length := by
  induction c generalizing k with
  | nil => exact absurd rfl hc
  | cons x xs ih =>
    cases k with
    | zero => omega
    | succ k =>
      by_cases hx : x = LF
      · simp [fgets, hx]
      · simp only [fgets, hx, if_false, List.length_cons]
        cases k with
        | zero =>
          cases xs <;> simp [fgets]
        | succ k =>
          cases xs with
          | nil => simp [fgets]
          | cons y ys =>
            have := ih (k + 1) (by omega) (by simp)
            simp only [List.length_cons] at this ⊢
            omega

theorem fgets_fst_le (k : Nat) (c : Str) : (fgets k c).1.length ≤ k := by
  induction c generalizing k with
  | nil => cases k <;> simp [fgets]
  | cons x xs ih =>
    cases k with
    | zero => simp [fgets]
    | succ k =>
      by_cases hx : x = LF
      · simp [fgets, hx]
      · simp only [fgets, hx, if_false, List.length_cons]
        have := ih k
        omega

theorem chunksFuel_congr (f1 f2 : Nat) (c : Str) (h1 : c.length < f1) (h2 : c.length < f2) :
    chunksFuel f1 c = chunksFuel f2 c := by
  induction f1 generalizing f2 c with
  | zero => omega
  | succ n ih =>
    cases f2 with
    | zero => omega
    | succ m =>
      unfold chunksFuel
      by_cases hc : c = []
      · simp [hc]
      · simp only [hc, if_false]
        have hlt := fgets_rest_lt (MAX_LINE - 1) c (by decide) hc
        rw [ih m _ (by omega) (by omega)]

theorem fileChunks_nil : fileChunks [] = [] := rfl

/-- One round of the loop: the first piece, then the pieces of the rest. -/
theorem fileChunks_cons (c : Str) (hc : c ≠ []) :
    fileChunks c
      = (fgets (MAX_LINE - 1) c).1 :: fileChunks (fgets (MAX_LINE - 1) c).2 := by
  have hlt := fgets_rest_lt (MAX_LINE - 1) c (by decide) hc
  unfold fileChunks
  rw [chunksFuel]
  simp only [hc, if_false]
  rw [chunksFuel_congr (c.length) ((fgets (MAX_LINE - 1) c).2.length + 1) _ hlt (by omega)]

theorem chunksFuel_le (f : Nat) (c : Str) :
    ∀ chunk ∈ chunksFuel f c, chunk.length ≤ MAX_LINE - 1 := by
  induction f generalizing c with
  | zero => simp [chunksFuel]
  | succ n ih =>
    unfold chunksFuel
    by_cases hc : c = []
    · simp [hc]
    · simp only [hc, if_false, List.mem_cons]
      intro chunk hmem
      rcases hmem with e | e
      · rw [e]
        exact fgets_fst_le _ _
      · exact ih _ chunk e

/-- A piece without line feed that fills the budget is read alone. -/
theorem fgets_take (k : Nat) (pre rest : Str) (hlf : LF ∉ pre) (hlen : pre.length = k) :
    fgets k (pre ++ rest) = (pre, rest) := by
  induction pre generalizing k with
  | nil =>
    simp only [List.length_nil] at hlen
    subst hlen
    simp [fgets]
  | cons x xs ih =>
    cases k with
    | zero => simp at hlen
    | succ k =>
      have hx : x ≠ LF := fun e => hlf (by simp [e])
      have hxs : LF ∉ xs := fun e => hlf (List.mem_cons_of_mem _ e)
      have hk : xs.length = k := by simpa using hlen
      simp [fgets, hx, ih k hxs hk]

theorem loadLine_terminated (config : config_map) (line rest : Str) (t : Char)
    (ht : t = NUL ∨ t = LF ∨ t = CR) :
    loadLine config (line ++ t :: rest) = loadLine config line := by
  simp [loadLine, scanLine_terminated line rest t ht]

theorem readConfig_step (c : Str) (config : config_map) (hc : c ≠ []) :
    readConfig (some c) config
      = readConfig (some (fgets (MAX_LINE - 1) c).2)
          (loadLine config (fgets (MAX_LINE - 1) c).1) := by
  rw [readConfig_eq_loadLines, readConfig_eq_loadLines, fileChunks_cons c hc]
  rfl

/-- A physical line of at most 299 characters is loaded as one line. -/
theorem readConfig_short_line (line rest : Str) (config : config_map)
    (hlf : LF ∉ line) (hlen : line.length ≤ MAX_LINE - 1) :
    readConfig (some (line ++ LF :: rest)) config
      = readConfig (some rest) (loadLine config line) := by
  rw [readConfig_step _ _ (by simp)]
  by_cases hlt : line.length < MAX_LINE - 1
  · rw [fgets_line line rest _ hlf hlt]
    simp only
    rw [loadLine_terminated config line [] LF (Or.inr (Or.inl rfl))]
  · have heq : line.length = MAX_LINE - 1 := by omega
    rw [fgets_take _ line (LF :: rest) hlf heq]
    simp only
    rw [readConfig_step _ _ (by simp)]
    have h1 : fgets (MAX_LINE - 1) (LF :: rest) = ([LF], rest) := by
      simp [fgets, MAX_LINE]
    rw [h1]
    simp only
    have h2 : ∀ m : config_map, loadLine m [LF] = m := by
      intro m
      simp [loadLine, scanLine, scan, LineState.init]
    rw [h2]

/-- Of a physical line of more than 299 characters the first 299 are loaded
as a line of their own, and the loop goes on with what is left. -/
theorem readConfig_long_line (line rest : Str) (config : config_map)
    (hlf : LF ∉ line) (hlen : MAX_LINE - 1 < line.length) :
    readConfig (some (line ++ rest)) config
      = readConfig (some (line.drop (MAX_LINE - 1) ++ rest))
          (loadLine config (line.take (MAX_LINE - 1))) := by
  have hne : line ++ rest ≠ [] := by
    intro e
    have := congrArg List.length e
    simp only [List.length_append, List.length_nil] at this
    omega
  rw [readConfig_step _ _ hne]
  have hsplit : line ++ rest
      = line.take (MAX_LINE - 1) ++ (line.drop (MAX_LINE - 1) ++ rest) := by
    rw [← List.append_assoc, List.take_append_drop]
  have hlf2 : LF ∉ line.take (MAX_LINE - 1) := fun e => hlf (List.mem_of_mem_take e)
  have hl2 : (line.take (MAX_LINE - 1)).length = MAX_LINE - 1 := by
    rw [List.length_take]
    omega
  have hf := fgets_take (MAX_LINE - 1) _ (line.drop (MAX_LINE - 1) ++ rest) hlf2 hl2
  rw [← hsplit] at hf
  rw [hf]

theorem scanLine_plain_pair (K V : Str) (hKp : Plain K) (hVp : Plain V) :
    scanLine (K ++ '=' :: V) = ⟨false, true, K, V⟩ := by
  unfold scanLine
  rw [scan_append K _ _ hKp.noStop, scan_plain K _ hKp, scan_cons_eq, scan_plain V _ hVp]
  simp [LineState.appendAll, LineState.init]

theorem loadLine_plain_pair (K V : Str) (config : config_map)
    (hK : K ≠ []) (hKp : Plain K) (hVp : Plain V) :
    loadLine config (K ++ '=' :: V) = assign config K V := by
  simp [loadLine, scanLine_plain_pair K V hKp hVp, List.length_pos.mpr hK]

theorem loadLine_plain_word (R : Str) (config : config_map) (hR : R ≠ []) (hRp : Plain R) :
    loadLine config R = assign config R [] := by
  have : scanLine R = ⟨false, false, R, []⟩ := by
    unfold scanLine
    rw [scan_plain R _ hRp]
    simp [LineState.appendAll, LineState.init]
  simp [loadLine, this, List.length_pos.mpr hR]

theorem Plain.take {w : Str} (h : Plain w) (n : Nat) : Plain (w.take n) :=
  fun c hc => h c (List.mem_of_mem_take hc)

theorem Plain.drop {w : Str} (h : Plain w) (n : Nat) : Plain (w.drop n) :=
  fun c hc => h c (List.mem_of_mem_drop hc)

set_option maxRecDepth 200000 in
/-- C20, counterexample: the plain line `K=V` with a key of 300 letters `a`
and the value `b` is longer than 299 characters, yet `K` is not stored at
all: the first 299 letters are stored as a key of their own and the rest
`a=b` as a second entry. -/
theorem C20_counterexample :
    Plain (List.replicate 300 'a') ∧ Plain "b".toList
    ∧ MAX_LINE - 1 < longKeyExample.length
    ∧ find (readConfig (some (longKeyExample ++ [LF])) []).2 (List.replicate 300 'a') = none
    ∧ (readConfig (some (longKeyExample ++ [LF])) []).2
        = [("a".toList, "b".toList), (List.replicate 299 'a', [])] := by
  decide

/-- C20, amended: `readConfig` loads the pieces `fgets` delivers, each of
at most 299 characters and each scanned from the fresh line state. A physical
line of at most 299 characters is loaded as one line; of a longer one the
first 299 characters are loaded as a line and the loop goes on with the rest.
So a plain line `K=V` longer than 299 characters whose key has at most 298
characters binds `K` to the first `298 - |K|` characters of `V` and goes on
with the rest of `V` as if it were the next line; when that rest has at most
299 characters it is stored as a further key bound to the empty string. -/
theorem C20_chunked_lines (K V line rest content : Str) (config : config_map) :
    (∀ chunk ∈ fileChunks content, chunk.length ≤ MAX_LINE - 1)
    ∧ readConfig (some content) config = (1, loadLines config (fileChunks content))
    ∧ (LF ∉ line → line.length ≤ MAX_LINE - 1 →
        readConfig (some (line ++ LF :: rest)) config
          = readConfig (some rest) (loadLine config line))
    ∧ (LF ∉ line → MAX_LINE - 1 < line.length →
        readConfig (some (line ++ rest)) config
          = readConfig (some (line.drop (MAX_LINE - 1) ++ rest))
              (loadLine config (line.take (MAX_LINE - 1))))
    ∧ (K ≠ [] → Plain K → Plain V → K.length ≤ MAX_LINE - 2 →
        MAX_LINE - 1 < (K ++ '=' :: V).length →
        tokenize ((K ++ '=' :: V).take (MAX_LINE - 1))
            = some (K, V.take (MAX_LINE - 2 - K.length))
        ∧ V.drop (MAX_LINE - 2 - K.length) ≠ []
        ∧ readConfig (some ((K ++ '=' :: V) ++ LF :: rest)) config
            = readConfig (some (V.drop (MAX_LINE - 2 - K.length) ++ LF :: rest))
                (assign config K (V.take (MAX_LINE - 2 - K.length)))
        ∧ ((V.drop (MAX_LINE - 2 - K.length)).length ≤ MAX_LINE - 1 →
            readConfig (some ((K ++ '=' :: V) ++ LF :: rest)) config
              = readConfig (some rest)
                  (assign (assign config K (V.take (MAX_LINE - 2 - K.length)))
                    (V.drop (MAX_LINE - 2 - K.length)) []))) := by
  refine ⟨chunksFuel_le _ _, readConfig_eq_loadLines content config,
    fun h1 h2 => readConfig_short_line line rest config h1 h2,
    fun h1 h2 => readConfig_long_line line rest config h1 h2, ?_⟩
  intro hK hKp hVp hKlen hlong
  have hM1 : MAX_LINE - 1 = 299 := rfl
  have hM2 : MAX_LINE - 2 = 298 := rfl
  rw [hM1] at hlong ⊢
  rw [hM2] at hKlen ⊢
  have hlen : (K ++ '=' :: V).length = K.length + 1 + V.length := by
    simp only [List.length_append, List.length_cons]
    omega
  have htake : (K ++ '=' :: V).take 299 = K ++ '=' :: V.take (298 - K.length) := by
    rw [List.take_append_eq_append_take, List.take_of_length_le (by omega)]
    have : 299 - K.length = (298 - K.length) + 1 := by omega
    rw [this, List.take_succ_cons]
  have hdrop : (K ++ '=' :: V).drop 299 = V.drop (298 - K.length) := by
    rw [List.drop_append_eq_append_drop, List.drop_of_length_le (by omega)]
    have : 299 - K.length = (298 - K.length) + 1 := by omega
    rw [this, List.drop_succ_cons, List.nil_append]
  have hVt : Plain (V.take (298 - K.length)) := hVp.take _
  have hR : Plain (V.drop (298 - K.length)) := hVp.drop _
  have hRne : V.drop (298 - K.length) ≠ [] := by
    intro e
    have := congrArg List.length e
    rw [List.length_drop, List.length_nil] at this
    omega
  have hlf : LF ∉ K ++ '=' :: V := by
    intro hmem
    rcases List.mem_append.mp hmem with h | h
    · exact (hKp LF h).2.2.2.2.2.1 rfl
    · rcases List.mem_cons.mp h with h | h
      · revert h
        decide
      · exact (hVp LF h).2.2.2.2.2.1 rfl
  have hstep : readConfig (some ((K ++ '=' :: V) ++ LF :: rest)) config
      = readConfig (some (V.drop (298 - K.length) ++ LF :: rest))
          (assign config K (V.take (298 - K.length))) := by
    rw [readConfig_long_line (K ++ '=' :: V) (LF :: rest) config hlf (by rw [hM1]; exact hlong),
      hM1, htake, hdrop, loadLine_plain_pair K _ config hK hKp hVt]
  refine ⟨?_, hRne, hstep, fun hshort => ?_⟩
  · rw [htake]
    simp [tokenize, scanLine_plain_pair K _ hKp hVt, List.length_pos.mpr hK]
  · have hlfR : LF ∉ V.drop (298 - K.length) := fun h => (hR LF h).2.2.2.2.2.1 rfl
    rw [hstep, readConfig_short_line _ rest _ hlfR (by rw [hM1]; exact hshort),
      loadLine_plain_word _ _ hRne hR]

set_option maxRecDepth 200000 in
/-- C20, witness: the key `k` with a value of 300 letters `v`: the first 297
letters are the value of `k`, the other three are stored as a key. -/
theorem C20_chunked_lines_witness :
    "k".toList ≠ [] ∧ Plain "k".toList ∧ Plain (List.replicate 300 'v')
    ∧ MAX_LINE - 1 < ("k".toList ++ '=' :: List.replicate 300 'v').length
    ∧ tokenize (("k".toList ++ '=' :: List.replicate 300 'v').take (MAX_LINE - 1))
        = some ("k".toList, (List.replicate 300 'v').take (MAX_LINE - 2 - "k".toList.length))
    ∧ (List.replicate 300 'v').drop (MAX_LINE - 2 - "k".toList.length) = "vvv".toList :=
  ⟨by decide, by decide, by decide, by decide,
    ((C20_chunked_lines "k".toList (List.replicate 300 'v') [] [] [] []).2.2.2.2
      (by decide) (by decide) (by decide) (by decide) (by decide)).1,
    by decide⟩

/-! ## The default file read back -/

theorem fgets_all (k : Nat) (c : Str) (hlf : LF ∉ c) (hlen : c.length ≤ k) :
    fgets k c = (c, []) := by
  induction c generalizing k with
  | nil => cases k <;> simp [fgets]
  | cons x xs ih =>
    cases k with
    | zero => simp at hlen
    | succ k =>
      have hx : x ≠ LF := fun e => hlf (by simp [e])
      have hxs : LF ∉ xs := fun e => hlf (List.mem_cons_of_mem _ e)
      have hk : xs.length ≤ k := by simpa using hlen
      simp [fgets, hx, ih k hxs hk]

theorem loadLine_nil (config : config_map) : loadLine config [] = config := by
  simp [loadLine, scanLine, scan, LineState.init]

/-- A file whose lines have at most 299 characters each is loaded line by
line. -/
theorem readConfig_joinLines (lines : List Str) (config : config_map)
    (h : ∀ l ∈ lines, LF ∉ l ∧ l.length ≤ MAX_LINE - 1) :
    readConfig (some (joinLines lines)) config = (1, loadLines config lines) := by
  induction lines generalizing config with
  | nil => rfl
  | cons l ls ih =>
    have hl := h l (List.mem_cons_self _ _)
    cases ls with
    | nil =>
      simp only [joinLines]
      by_cases hne : l = []
      · subst hne
        simp [readConfig, readLoop, loadLines, loadLine_nil]
      · rw [readConfig_step l config hne, fgets_all _ l hl.1 hl.2]
        rfl
    | cons l2 ls2 =>
      simp only [joinLines]
      rw [readConfig_short_line l _ config hl.1 hl.2,
        ih _ (fun x hx => h x (List.mem_cons_of_mem _ hx))]
      rfl

set_option maxRecDepth 1000000 in
theorem defaultLines_short : ∀ l ∈ defaultLines, LF ∉ l ∧ l.length ≤ MAX_LINE - 1 := by
  decide

set_option maxRecDepth 1000000 in
theorem loadLines_defaultLines : loadLines [] defaultLines = defaultStore := by
  decide

theorem readConfig_createDefault :
    readConfig (some createDefaultText) [] = (1, defaultStore) := by
  unfold createDefaultText
  rw [readConfig_joinLines defaultLines [] defaultLines_short, loadLines_defaultLines]

set_option maxRecDepth 1000000 in
/-- C13: `readConfig` on the text that `createDefault` writes, from the
empty store, gives the store `defaultStore`. It binds each of the 42
uncommented `keycode` lines to the action written on the line: `keycode.113`
and `keycode.27` to `quit`, `keycode.9` to `switch`, `keycode.13` to `select`,
`keycode.f.80` to `tab_playback`, `keycode.48` to `set_volume_0`, `keycode.63`
to `help`. These keys and actions hold no quote, space or comment text, the
store has no other `keycode` entry, and the commented-out action
`set_volume_100` is nowhere in it. -/
theorem C13_default_keybindings :
    readConfig (some createDefaultText) [] = (1, defaultStore)
    ∧ defaultKeybinds.length = 42
    ∧ (∀ p ∈ defaultKeybinds, find (readConfig (some createDefaultText) []).2 p.1 = some p.2)
    ∧ (∀ p ∈ defaultKeybinds, Plain p.1 ∧ Plain p.2)
    ∧ find (readConfig (some createDefaultText) []).2 "keycode.113".toList = some "quit".toList
    ∧ find (readConfig (some createDefaultText) []).2 "keycode.27".toList = some "quit".toList
    ∧ find (readConfig (some createDefaultText) []).2 "keycode.9".toList = some "switch".toList
    ∧ find (readConfig (some createDefaultText) []).2 "keycode.13".toList = some "select".toList
    ∧ find (readConfig (some createDefaultText) []).2 "keycode.f.80".toList
        = some "tab_playback".toList
    ∧ find (readConfig (some createDefaultText) []).2 "keycode.48".toList
        = some "set_volume_0".toList
    ∧ find (readConfig (some createDefaultText) []).2 "keycode.63".toList = some "help".toList
    ∧ ((readConfig (some createDefaultText) []).2.filter
        (fun p => decide (p.1.take 7 = "keycode".toList))).length = 42
    ∧ (∀ p ∈ (readConfig (some createDefaultText) []).2, p.2 ≠ "set_volume_100".toList) := by
  rw [readConfig_createDefault]
  refine ⟨rfl, ?_, ?_, ?_, ?_, ?_, ?_, ?_, ?_, ?_, ?_, ?_, ?_⟩ <;> decide

/-! ## Keycode names -/


theorem c_str_of_no_NUL (s : Str) (h : NUL ∉ s) : c_str s = s := by
  unfold c_str
  rw [List.takeWhile_eq_self_iff]
  intro c hc
  have : c ≠ NUL := fun e => h (e ▸ hc)
  simpa using this

theorem isdigit_ne_NUL (c : Char) (h : isdigit c = true) : c ≠ NUL ∧ c ≠ 'f' := by
  have h1 : 48 ≤ c.toNat ∧ c.toNat ≤ 57 := by simpa [isdigit] using h
  constructor
  · intro e
    rw [e] at h1
    revert h1
    decide
  · intro e
    rw [e] at h1
    revert h1
    decide

theorem stoi_renders (L : Str) (n : Nat) (h : Renders L n) (hn : (n : Int) < 2 ^ 31) :
    stoi L = some (n : Int) := by
  have hv := digitsVal_renders L n h
  obtain ⟨hne, hdig, _⟩ := h
  cases L with
  | nil => exact absurd rfl hne
  | cons c cs =>
    have hd := hdig c (List.mem_cons_self c cs)
    have hc := isdigit_not_special c hd
    have hdrop : List.dropWhile isspace (c :: cs) = c :: cs := by
      simp [List.dropWhile, hc.1]
    unfold stoi
    rw [hdrop]
    simp only [hc.2.1, hc.2.2, or_self, if_false, hd, if_true, hv, hn]

theorem stoi_neg_renders (L : Str) (n : Nat) (h : Renders L n) (hn : (n : Int) ≤ 2 ^ 31) :
    stoi ('-' :: L) = some (- (n : Int)) := by
  have hv := digitsVal_renders L n h
  obtain ⟨hne, hdig, _⟩ := h
  cases L with
  | nil => exact absurd rfl hne
  | cons c cs =>
    have hd := hdig c (List.mem_cons_self c cs)
    have hdrop : List.dropWhile isspace ('-' :: c :: cs) = '-' :: c :: cs := by
      simp [List.dropWhile, isspace]
    unfold stoi
    rw [hdrop]
    simp only [true_or, if_true, hd, hv, hn]

/-- Within the range of `int` the decimal rendering is read back by `stoi`. -/
theorem stoi_to_string (k : Int) (hlo : -(2 : Int) ^ 31 ≤ k) (hhi : k < (2 : Int) ^ 31) :
    stoi (to_string k) = some k := by
  unfold to_string
  by_cases hneg : k < 0
  · rw [if_pos hneg, stoi_neg_renders _ _ (toDigits_renders k.natAbs) (by omega)]
    congr 1
    omega
  · rw [if_neg hneg, stoi_renders _ _ (toDigits_renders k.toNat) (by omega)]
    congr 1
    omega

theorem to_string_no_NUL (k : Int) : NUL ∉ to_string k := by
  unfold to_string
  have hd : ∀ n : Nat, NUL ∉ Nat.toDigits 10 n := by
    intro n hmem
    exact (isdigit_ne_NUL NUL ((toDigits_renders n).2.1 NUL hmem)).1 rfl
  split
  · intro hmem
    rcases List.mem_cons.mp hmem with e | e
    · revert e
      decide
    · exact hd _ e
  · exact hd _

theorem to_string_head (k : Int) (hk : 0 ≤ k) :
    ∃ c cs, to_string k = c :: cs ∧ isdigit c = true := by
  unfold to_string
  rw [if_neg (by omega)]
  obtain ⟨hne, hdig, _⟩ := toDigits_renders k.toNat
  cases h : Nat.toDigits 10 k.toNat with
  | nil => exact absurd h hne
  | cons c cs =>
    rw [h] at hdig
    exact ⟨c, cs, rfl, hdig c (List.mem_cons_self _ _)⟩



theorem getKeycodeName_vt100 (keyname : Int → Option Str) (ts : Str) (k : Int)
    (hn : NUL ∉ ts) (hs : stoi ts = some k) :
    getKeycodeName keyname (some ("keycode.f.".toList ++ ts))
      = some ("VT100_F".toList ++ to_string (toInt32 (k - 79))) := by
  have e : "keycode.f.".toList ++ ts
      = 'k' :: 'e' :: 'y' :: 'c' :: 'o' :: 'd' :: 'e' :: '.' :: 'f' :: '.' :: ts := rfl
  have hnul : NUL ∉ 'k' :: 'e' :: 'y' :: 'c' :: 'o' :: 'd' :: 'e' :: '.' :: 'f' :: '.' :: ts := by
    intro hmem
    simp only [List.mem_cons] at hmem
    rcases hmem with h | h | h | h | h | h | h | h | h | h | h
    all_goals first | exact hn h | (revert h; decide)
  rw [e]
  unfold getKeycodeName
  simp only [c_str_of_no_NUL _ hnul]
  simp [KEY, KEY_SIZE, hs]

theorem getKeycodeName_code (keyname : Int → Option Str) (x c : Char) (cs : Str) (k : Int)
    (hx : x ≠ NUL) (hn : NUL ∉ c :: cs) (hc : c ≠ 'f') (hs : stoi (c :: cs) = some k) :
    getKeycodeName keyname (some ("keycode".toList ++ x :: c :: cs)) = keyname k := by
  have e : "keycode".toList ++ x :: c :: cs
      = 'k' :: 'e' :: 'y' :: 'c' :: 'o' :: 'd' :: 'e' :: x :: c :: cs := rfl
  have hnul : NUL ∉ 'k' :: 'e' :: 'y' :: 'c' :: 'o' :: 'd' :: 'e' :: x :: c :: cs := by
    intro hmem
    simp only [List.mem_cons] at hmem
    rcases hmem with h | h | h | h | h | h | h | h | h
    all_goals first
      | exact hn (List.mem_cons.mpr h)
      | exact hx h.symm
      | (revert h; decide)
  rw [e]
  unfold getKeycodeName
  simp only [c_str_of_no_NUL _ hnul]
  simp [KEY, KEY_SIZE, hs, hc]

/-- The keys that get the empty name. -/
theorem getKeycodeName_empty (keyname : Int → Option Str) (key : Str) (hn : NUL ∉ key) :
    (key.take 7 ≠ "keycode".toList → getKeycodeName keyname (some key) = some [])
    ∧ (key.length < 9 → getKeycodeName keyname (some key) = some [])
    ∧ (¬ ((key.drop 8)[0]? = some 'f' ∧ (key.drop 8)[1]? = some '.') →
        stoi (key.drop 8) = none → getKeycodeName keyname (some key) = some [])
    ∧ (((key.drop 8)[0]? = some 'f' ∧ (key.drop 8)[1]? = some '.') →
        stoi (key.drop 10) = none → getKeycodeName keyname (some key) = some []) := by
  have hc := c_str_of_no_NUL key hn
  refine ⟨?_, ?_, ?_, ?_⟩
  · intro h
    have h2 : List.take KEY_SIZE key ≠ KEY := h
    simp [getKeycodeName, hc, h2]
  · intro h
    have h2 : key.length < KEY_SIZE + 2 := h
    by_cases h0 : key = []
    · subst h0
      rfl
    · by_cases h1 : List.take KEY_SIZE key ≠ KEY
      · simp [getKeycodeName, hc, h1]
      · simp only [getKeycodeName, hc, h0, h1, h2, if_true, if_false]
  · intro hf hs
    have hf2 : ¬ ((List.drop (KEY_SIZE + 1) key)[0]? = some 'f'
        ∧ (List.drop (KEY_SIZE + 1) key)[1]? = some '.') := hf
    have hs2 : stoi (List.drop (KEY_SIZE + 1) key) = none := hs
    by_cases h0 : key = []
    · subst h0
      rfl
    · by_cases h1 : List.take KEY_SIZE key ≠ KEY
      · simp [getKeycodeName, hc, h1]
      · by_cases h2 : key.length < KEY_SIZE + 2
        · simp only [getKeycodeName, hc, h0, h1, h2, if_true, if_false]
        · simp only [getKeycodeName, hc, h0, h1, h2, hf2, hs2, if_false]
  · intro hf hs
    have hf2 : ((List.drop (KEY_SIZE + 1) key)[0]? = some 'f'
        ∧ (List.drop (KEY_SIZE + 1) key)[1]? = some '.') := hf
    have hs2 : stoi (List.drop 2 (List.drop (KEY_SIZE + 1) key)) = none := by
      rw [List.drop_drop]
      exact hs
    by_cases h0 : key = []
    · subst h0
      rfl
    · by_cases h1 : List.take KEY_SIZE key ≠ KEY
      · simp [getKeycodeName, hc, h1]
      · by_cases h2 : key.length < KEY_SIZE + 2
        · simp only [getKeycodeName, hc, h0, h1, h2, if_true, if_false]
        · simp only [getKeycodeName, hc, h0, h1, h2, hf2, hs2, if_true, if_false, and_self]

theorem stoi_none_of_not_numeric (v : Str) (h : beginsNumeric v = false) : stoi v = none := by
  unfold beginsNumeric at h
  unfold stoi
  cases hdrop : List.dropWhile isspace v with
  | nil => rfl
  | cons c cs =>
    rw [hdrop] at h
    simp only at h ⊢
    by_cases hs : c = '-' ∨ c = '+'
    · simp only [hs, if_true] at h ⊢
      cases cs with
      | nil => rfl
      | cons c2 cs2 =>
        simp only at h
        simp [h]
    · simp only [hs, if_false] at h ⊢
      simp [h]

/-- C14, counterexample: the integer 2147483648 written in decimal does not
fit an `int`, `std::stoi` throws, and both `keycode.f.2147483648` and
`keycode.2147483648` get the empty name, not `VT100_F2147483569` and not the
name `keyname` has for the code. -/
theorem C14_counterexample :
    getKeycodeName (fun _ => some "^[".toList)
        (some ("keycode.f.".toList ++ to_string 2147483648)) = some []
    ∧ "VT100_F".toList ++ to_string (2147483648 - 79) = "VT100_F2147483569".toList
    ∧ getKeycodeName (fun _ => some "^[".toList)
        (some ("keycode.".toList ++ to_string 2147483648)) = some []
    ∧ (fun _ => some "^[".toList) (2147483648 : Int) ≠ some ([] : Str) := by
  decide

/-- C14, amended: for every `k` with `-2^31 + 79 ≤ k < 2^31` the name of
`keycode.f.` followed by the decimal form of `k` is `VT100_F` followed by the
decimal form of `k - 79`, so `keycode.f.80` gives `VT100_F1`; for every `k`
with `0 ≤ k < 2^31` that `keyname` names, the name of `keycode.` followed by
the decimal form of `k` is the name `keyname` returns for `k`. -/
theorem C14_keycode_names (keyname : Int → Option Str) (k : Int) :
    (-(2 : Int) ^ 31 + 79 ≤ k → k < (2 : Int) ^ 31 →
      getKeycodeName keyname (some ("keycode.f.".toList ++ to_string k))
        = some ("VT100_F".toList ++ to_string (k - 79)))
    ∧ (0 ≤ k → k < (2 : Int) ^ 31 → ∀ n : Str, keyname k = some n →
      getKeycodeName keyname (some ("keycode.".toList ++ to_string k)) = some n)
    ∧ getKeycodeName keyname (some "keycode.f.80".toList) = some "VT100_F1".toList := by
  refine ⟨fun hlo hhi => ?_, fun hlo hhi n hname => ?_, ?_⟩
  · rw [getKeycodeName_vt100 keyname _ k (to_string_no_NUL k)
      (stoi_to_string k (by omega) hhi)]
    have : toInt32 (k - 79) = k - 79 := by
      unfold toInt32
      omega
    rw [this]
  · obtain ⟨c, cs, hcs, hd⟩ := to_string_head k hlo
    have hn := to_string_no_NUL k
    have hs := stoi_to_string k (by omega) hhi
    rw [hcs] at hn hs ⊢
    rw [← hname]
    exact getKeycodeName_code keyname '.' c cs k (by decide) hn (isdigit_ne_NUL c hd).2 hs
  · have h := getKeycodeName_vt100 keyname "80".toList 80 (by decide) (by decide)
    have e : "keycode.f.".toList ++ "80".toList = "keycode.f.80".toList := by decide
    rw [e] at h
    rw [h]
    decide

/-- C14, witness: the codes 84 and 113, with a `keyname` that names 113 and
has no name for most codes. -/
theorem C14_keycode_names_witness :
    -(2 : Int) ^ 31 + 79 ≤ 84 ∧ (84 : Int) < (2 : Int) ^ 31
    ∧ getKeycodeName keynameSample (some ("keycode.f.".toList ++ to_string 84))
        = some ("VT100_F".toList ++ to_string (84 - 79))
    ∧ (0 : Int) ≤ 113 ∧ (113 : Int) < (2 : Int) ^ 31
    ∧ keynameSample 113 = some "q".toList
    ∧ getKeycodeName keynameSample (some ("keycode.".toList ++ to_string 113))
        = some "q".toList :=
  ⟨by decide, by decide,
    (C14_keycode_names keynameSample 84).1 (by decide) (by decide),
    by decide, by decide, by decide,
    (C14_keycode_names keynameSample 113).2.1 (by decide) (by decide) "q".toList (by decide)⟩

/-- C15, counterexample: with a `keyname` that names the code 27 `^[`, the
keys `keycodeX27` and `keycode.27abc` get that name, not the empty one. -/
theorem C15_counterexample :
    getKeycodeName keynameSample (some "keycodeX27".toList) = some "^[".toList
    ∧ getKeycodeName keynameSample (some "keycode.27abc".toList) = some "^[".toList
    ∧ "^[".toList ≠ [] := by
  decide

/-- C15, amended: the name is empty for the null pointer, for every key
whose first seven characters are not `keycode`, for every key of fewer than
nine characters, and for every key whose text after the eighth character
(after a following `f.` when there is one) does not begin, after optional
white space and an optional sign, with a decimal digit: so for `keycode.abc`,
`keycode.`, `keycode.f.` and `Keycode.27`. The eighth character is not looked
at and what follows the digits is ignored: `keycodeX27` and `keycode.27abc`
get what `keyname` returns for 27. -/
theorem C15_untranslated_keys (keyname : Int → Option Str) (key : Str) (hn : NUL ∉ key) :
    getKeycodeName keyname none = some []
    ∧ (key.take 7 ≠ "keycode".toList → getKeycodeName keyname (some key) = some [])
    ∧ (key.length < 9 → getKeycodeName keyname (some key) = some [])
    ∧ (¬ ((key.drop 8)[0]? = some 'f' ∧ (key.drop 8)[1]? = some '.') →
        beginsNumeric (key.drop 8) = false → getKeycodeName keyname (some key) = some [])
    ∧ (((key.drop 8)[0]? = some 'f' ∧ (key.drop 8)[1]? = some '.') →
        beginsNumeric (key.drop 10) = false → getKeycodeName keyname (some key) = some [])
    ∧ getKeycodeName keyname (some "keycode.abc".toList) = some []
    ∧ getKeycodeName keyname (some "keycode.".toList) = some []
    ∧ getKeycodeName keyname (some "keycode.f.".toList) = some []
    ∧ getKeycodeName keyname (some "Keycode.27".toList) = some []
    ∧ getKeycodeName keyname (some "keycodeX27".toList) = keyname 27
    ∧ getKeycodeName keyname (some "keycode.27abc".toList) = keyname 27 := by
  have hg := getKeycodeName_empty keyname key hn
  refine ⟨rfl, hg.1, hg.2.1,
    fun hf hb => hg.2.2.1 hf (stoi_none_of_not_numeric _ hb),
    fun hf hb => hg.2.2.2 hf (stoi_none_of_not_numeric _ hb), ?_, ?_, ?_, ?_, ?_, ?_⟩
  · exact (getKeycodeName_empty keyname "keycode.abc".toList (by decide)).2.2.1
      (by decide) (by decide)
  · exact (getKeycodeName_empty keyname "keycode.".toList (by decide)).2.1 (by decide)
  · exact (getKeycodeName_empty keyname "keycode.f.".toList (by decide)).2.2.2
      (by decide) (by decide)
  · exact (getKeycodeName_empty keyname "Keycode.27".toList (by decide)).1 (by decide)
  · exact getKeycodeName_code keyname 'X' '2' "7".toList 27
      (by decide) (by decide) (by decide) (by decide)
  · exact getKeycodeName_code keyname '.' '2' "7abc".toList 27
      (by decide) (by decide) (by decide) (by decide)

/-- C15, witness: the key `keycode.x1`. -/
theorem C15_untranslated_keys_witness :
    NUL ∉ "keycode.x1".toList
    ∧ beginsNumeric ("keycode.x1".toList.drop 8) = false
    ∧ getKeycodeName keynameSample (some "keycode.x1".toList) = some [] :=
  ⟨by decide, by decide,
    (C15_untranslated_keys keynameSample "keycode.x1".toList (by decide)).2.2.2.1
      (by decide) (by decide)⟩

theorem eventsOf_snoc (nm : Str → Str) (l : config_map) (x : Str × Str) :
    eventsOf nm (l ++ [x])
      = if nm x.1 = [] then eventsOf nm l
        else assign (eventsOf nm l) (nm x.1) x.2 := by
  simp [eventsOf, List.foldl_append]

theorem eventsOf_sound (nm : Str → Str) (l : config_map) (name v : Str)
    (h : find (eventsOf nm l) name = some v) :
    name ≠ [] ∧ ∃ p ∈ l, nm p.1 = name ∧ p.2 = v := by
  induction l using List.reverseRecOn with
  | nil => simp [eventsOf, find] at h
  | append_singleton l x ih =>
    rw [eventsOf_snoc] at h
    by_cases hx : nm x.1 = []
    · rw [if_pos hx] at h
      obtain ⟨h1, p, hp, h2⟩ := ih h
      exact ⟨h1, p, List.mem_append_left _ hp, h2⟩
    · rw [if_neg hx] at h
      by_cases hn : name = nm x.1
      · rw [hn, find_assign_self] at h
        refine ⟨by rw [hn]; exact hx, x, by simp, hn.symm, ?_⟩
        simpa using h
      · rw [find_assign_other _ _ _ _ hn] at h
        obtain ⟨h1, p, hp, h2⟩ := ih h
        exact ⟨h1, p, List.mem_append_left _ hp, h2⟩

theorem eventsOf_complete (nm : Str → Str) (l : config_map) (p : Str × Str)
    (hp : p ∈ l) (hne : nm p.1 ≠ []) :
    ∃ v, find (eventsOf nm l) (nm p.1) = some v := by
  induction l using List.reverseRecOn with
  | nil => exact absurd hp (List.not_mem_nil p)
  | append_singleton l x ih =>
    rw [eventsOf_snoc]
    by_cases hx : nm x.1 = []
    · rw [if_pos hx]
      rcases List.mem_append.mp hp with h | h
      · exact ih h
      · rw [List.mem_singleton] at h
        rw [h] at hne
        exact absurd hx hne
    · rw [if_neg hx]
      by_cases hn : nm p.1 = nm x.1
      · rw [hn, find_assign_self]
        exact ⟨_, rfl⟩
      · rw [find_assign_other _ _ _ _ hn]
        rcases List.mem_append.mp hp with h | h
        · exact ih h
        · rw [List.mem_singleton] at h
          rw [h] at hn
          exact absurd rfl hn

theorem eventsOf_unique (nm : Str → Str) (l : config_map) (p : Str × Str)
    (hp : p ∈ l) (hne : nm p.1 ≠ [])
    (hu : ∀ q ∈ l, nm q.1 = nm p.1 →
      q = p) :
    find (eventsOf nm l) (nm p.1) = some p.2 := by
  induction l using List.reverseRecOn with
  | nil => exact absurd hp (List.not_mem_nil p)
  | append_singleton l x ih =>
    have hu2 : ∀ q ∈ l, nm q.1
        = nm p.1 → q = p :=
      fun q hq => hu q (List.mem_append_left _ hq)
    rw [eventsOf_snoc]
    by_cases hx : nm x.1 = []
    · rw [if_pos hx]
      rcases List.mem_append.mp hp with h | h
      · exact ih h hu2
      · rw [List.mem_singleton] at h
        rw [h] at hne
        exact absurd hx hne
    · rw [if_neg hx]
      by_cases hn : nm p.1 = nm x.1
      · have hxp : x = p := hu x (by simp) hn.symm
        rw [hn, find_assign_self, hxp]
      · rw [find_assign_other _ _ _ _ hn]
        rcases List.mem_append.mp hp with h | h
        · exact ih h hu2
        · rw [List.mem_singleton] at h
          rw [h] at hn
          exact absurd rfl hn

theorem ordered_eventsOf (nm : Str → Str) (l : config_map) :
    Ordered (eventsOf nm l) := by
  induction l using List.reverseRecOn with
  | nil => exact List.Pairwise.nil
  | append_singleton l x ih =>
    rw [eventsOf_snoc]
    split
    · exact ih
    · exact ordered_assign _ _ _ ih

theorem find_of_mem_ordered (m : config_map) (k v : Str) (ho : Ordered m)
    (hm : (k, v) ∈ m) : find m k = some v := by
  induction m with
  | nil => exact absurd hm (List.not_mem_nil _)
  | cons p m ih =>
    obtain ⟨k2, v2⟩ := p
    unfold Ordered at ho ih
    rw [List.pairwise_cons] at ho
    rcases List.mem_cons.mp hm with h | h
    · simp only [Prod.mk.injEq] at h
      simp [find, h.1, h.2]
    · have hlt := ho.1 _ h
      simp only at hlt
      have hne : k ≠ k2 := by
        intro e
        rw [e, strLt_irrefl] at hlt
        exact absurd hlt (by simp)
      simp only [find, hne, if_false]
      exact ih ho.2 h

theorem events_foldl_none (keyname : Int → Option Str) (l : config_map) :
    l.foldl
      (fun acc it =>
        match acc with
        | none => none
        | some keycodes => eventsStep keyname keycodes it)
      none = none := by
  induction l with
  | nil => rfl
  | cons x xs ih => exact ih

/-- When every key of the store gets a name the loop ends and returns the
map built from these names. -/
theorem events_of_named (keyname : Int → Option Str) (nm : Str → Str) (config : config_map)
    (h : ∀ p ∈ config, getKeycodeName keyname (some p.1) = some (nm p.1)) :
    getKeycodeNameEvents keyname config = some (eventsOf nm config) := by
  have hgen : ∀ (l : config_map) (acc : config_map),
      (∀ p ∈ l, getKeycodeName keyname (some p.1) = some (nm p.1)) →
      l.foldl
        (fun acc it =>
          match acc with
          | none => none
          | some keycodes => eventsStep keyname keycodes it)
        (some acc)
      = some (l.foldl
          (fun keycodes it =>
            if nm it.1 = [] then keycodes else assign keycodes (nm it.1) it.2) acc) := by
    intro l
    induction l with
    | nil => intro acc _; rfl
    | cons x xs ih =>
      intro acc hl
      have hx := hl x (List.mem_cons_self _ _)
      simp only [List.foldl_cons, eventsStep, hx]
      split
      · exact ih acc (fun p hp => hl p (List.mem_cons_of_mem _ hp))
      · exact ih _ (fun p hp => hl p (List.mem_cons_of_mem _ hp))
  exact hgen config [] h

/-- When `getKeycodeName` throws for a key of the store, the loop is left by
the exception and no map is returned. -/
theorem events_throws (keyname : Int → Option Str) (config : config_map) (p : Str × Str)
    (hp : p ∈ config) (h : getKeycodeName keyname (some p.1) = none) :
    getKeycodeNameEvents keyname config = none := by
  have hgen : ∀ (l : config_map) (acc : config_map), p ∈ l →
      l.foldl
        (fun acc it =>
          match acc with
          | none => none
          | some keycodes => eventsStep keyname keycodes it)
        (some acc) = none := by
    intro l
    induction l with
    | nil => intro acc hmem; exact absurd hmem (List.not_mem_nil p)
    | cons x xs ih =>
      intro acc hmem
      simp only [List.foldl_cons]
      cases hstep : eventsStep keyname acc x with
      | none => exact events_foldl_none keyname xs
      | some acc2 =>
        rcases List.mem_cons.mp hmem with e | e
        · rw [← e] at hstep
          simp [eventsStep, h] at hstep
        · exact ih acc2 e
  exact hgen config [] hp

/-- On a store all of whose keys get a name, `getKeycodeNameEvents` returns
a map that binds exactly the non-empty names of the keys, each to the value
of an entry whose key has the name, and to the value of `k` when `k` is the
only key with the name. -/
theorem events_named_spec (keyname : Int → Option Str) (nm : Str → Str)
    (config : config_map) (name : Str)
    (h : ∀ p ∈ config, getKeycodeName keyname (some p.1) = some (nm p.1)) :
    getKeycodeNameEvents keyname config = some (eventsOf nm config)
    ∧ ((∃ v, find (eventsOf nm config) name = some v) ↔
        (name ≠ [] ∧ ∃ p ∈ config, nm p.1 = name))
    ∧ (∀ v, find (eventsOf nm config) name = some v →
        ∃ p ∈ config, nm p.1 = name ∧ p.2 = v)
    ∧ (∀ k v, Ordered config → find config k = some v → nm k = name → name ≠ [] →
        (∀ q ∈ config, nm q.1 = name → q.1 = k) →
        find (eventsOf nm config) name = some v)
    ∧ Ordered (eventsOf nm config) := by
  refine ⟨events_of_named keyname nm config h, ⟨?_, ?_⟩, ?_, ?_, ordered_eventsOf nm config⟩
  · rintro ⟨v, hv⟩
    obtain ⟨h1, p, hp, h2, _⟩ := eventsOf_sound nm config name v hv
    exact ⟨h1, p, hp, h2⟩
  · rintro ⟨hne, p, hp, hname⟩
    rw [← hname] at hne ⊢
    exact eventsOf_complete nm config p hp hne
  · intro v hv
    exact (eventsOf_sound nm config name v hv).2
  · intro k v ho hf hname hne hu
    have hmem := mem_of_find config k v hf
    have hne2 : nm (k, v).1 ≠ [] := by
      simp only
      rw [hname]
      exact hne
    have := eventsOf_unique nm config (k, v) hmem hne2 (by
      intro q hq hqn
      simp only at hqn
      rw [hname] at hqn
      have hk := hu q hq hqn
      have hq2 : (q.1, q.2) ∈ config := hq
      have hfq := find_of_mem_ordered config q.1 q.2 ho hq2
      rw [hk, hf] at hfq
      simp only [Option.some.injEq] at hfq
      exact Prod.ext hk hfq.symm)
    simp only at this
    rw [hname] at this
    exact this

/-- C16, failing input: `keynameSample` has no name for the code 256. For the
key `keycode.256` the function `getKeycodeName` throws, and on a store that
holds this key `getKeycodeNameEvents` is left by the exception and returns no
map, whatever else the store holds. Without the key the map is returned, and
the keys `keycode.abc` and `theme`, which get the empty name, contribute
nothing. -/
theorem C16_unnamed_code_throws :
    keynameSample 256 = none
    ∧ getKeycodeName keynameSample (some "keycode.256".toList) = none
    ∧ getKeycodeNameEvents keynameSample [("keycode.256".toList, "x".toList)] = none
    ∧ getKeycodeNameEvents keynameSample
        [("keycode.113".toList, "quit".toList), ("keycode.256".toList, "x".toList),
          ("keycode.abc".toList, "y".toList)] = none
    ∧ getKeycodeNameEvents keynameSample
        [("keycode.113".toList, "quit".toList), ("keycode.abc".toList, "y".toList),
          ("theme".toList, "default".toList)] = some [("q".toList, "quit".toList)] := by
  decide

end Config
